import Mathlib

/-!
# SimpleVector

A verification development for `simple_vector.h`: the class template `SimpleVector<Type>`, a
resizable sequence that keeps its elements in one owned buffer (`ArrayPtr<Type>`) together with
the two counters `capacity_` and `size_`.

## Conventions of the embedding

* A buffer is the list of its slots.  The length of that list is the number of slots that were
  allocated; C++ does not store it, the model needs it to tell which accesses are in bounds.
* Operations are state transformers `SimpleVector α → Except Error ρ × SimpleVector α`: the
  first component is the value returned or the exception thrown, the second one is the object
  after the call.  An exception leaves the object as the statements executed before the throw
  left it.
* `assert(c)` is a check that ends the call with `Error.assertion_failed`.
* `size_t` values are natural numbers.  The arithmetic of the class is `size_ * 2`,
  `2 * capacity_`, `size_ + 1` and `index + 1`; these leave the range of `size_t` only for a
  vector of at least `2^63` slots.
* Iterators are raw pointers into the buffer; `begin() + i` is modelled by the index `i`.
* Moving an element is modelled as copying it: the slot moved from keeps its value, which is
  what happens for trivially copyable element types.
* `PushBack` and `Insert` receive their argument by reference (`const Type&` or `Type&&`).  The
  object referred to may be an element of the vector itself, as in `v.PushBack(v[2])`; a `Ref`
  is either a value held outside the vector or the index of an own element, and the model reads
  it at the statement where the code reads it, from the buffer as it is at that moment.
* Reading through a reference into a buffer that has been released is undefined behaviour in
  C++; the model ends the call there with `Error.dangling_reference`.
* The element type's value-initialised object `Type()` / `Type{}` is `default`.
* Whether an allocation of `n` slots succeeds is decided by a parameter `mem : Nat → Bool` of
  every operation that may allocate.
* In the definitions above a vector carries its buffer as a value.  Where the question is which
  object owns which storage (copying), the same code is also given on a free store: a `Store`
  maps addresses to buffers, an `Object` holds a pointer, and `Object.view` is the vector an
  object represents.
-/

/-- The failures a call can end with: `std::out_of_range` thrown by `At`, the allocation failure
thrown by the buffer, a failed `assert`, and a read through a reference whose buffer has been
released (undefined behaviour in C++). -/
inductive Error where
  | out_of_range
  | bad_alloc
  | assertion_failed
  | dangling_reference
  deriving DecidableEq, Repr

/-- Modelled from the spec: `array_ptr.h` is included by `simple_vector.h` but is not among the
sources.  Spec 4.1 describes the owned buffer as a fixed-length block of storage with index
access, release and an O(1) exchange of contents.  A buffer is the list of its slots. -/
abbrev ArrayPtr (α : Type) := List α

namespace ArrayPtr

variable {α : Type} [Inhabited α]

/-- Modelled from the spec: the constructor `ArrayPtr(size_t)` of the missing `array_ptr.h`.
Spec 4.1: "allocate(n) → buffer of exactly n default-constructed slots (fails with
AllocationError if n cannot be provided)". -/
def allocate (mem : Nat → Bool) (n : Nat) : Except Error (ArrayPtr α) :=
  if mem n then .ok (List.replicate n default) else .error .bad_alloc

/-- Modelled from the spec: reading `buf[i]` (spec 4.1, "index(i)").  Reading outside the buffer
is undefined in C++; the model returns `default` there. -/
def index (buf : ArrayPtr α) (i : Nat) : α :=
  buf.getD i default

/-- Modelled from the spec: the assignment `buf[i] = x` (spec 4.1, "index(i)").  Writing outside
the buffer is undefined in C++; the model leaves the buffer as it is. -/
def store (buf : ArrayPtr α) (i : Nat) (x : α) : ArrayPtr α :=
  buf.set i x

/-- Modelled from the spec: `Delete()` (spec 4.1, "release() → deallocates"): the buffer has no
slots afterwards. -/
def Delete (_buf : ArrayPtr α) : ArrayPtr α :=
  []

/-- Modelled from the spec: `a.swap(b)` (spec 4.1, "exchangeContents(other)"); the result is the
pair of `a` and `b` after the call. -/
def swap (a b : ArrayPtr α) : ArrayPtr α × ArrayPtr α :=
  (b, a)

end ArrayPtr

section Algorithms

variable {α : Type} [Inhabited α]

/-- The loop of `std::move(first, last, d_first)`, run for `n = last - first` elements:
`*d_first++ = std::move(*first++)`. -/
def std_move_loop (src : ArrayPtr α) : Nat → Nat → ArrayPtr α → Nat → ArrayPtr α
  | 0, _, dst, _ => dst
  | n + 1, first, dst, d_first =>
    std_move_loop src n (first + 1) (dst.store d_first (src.index first)) (d_first + 1)

/-- The algorithm `std::move(first, last, d_first)` from the buffer `src` into the different
buffer `dst`. -/
def std_move (src : ArrayPtr α) (first last : Nat) (dst : ArrayPtr α) (d_first : Nat) :
    ArrayPtr α :=
  std_move_loop src (last - first) first dst d_first

/-- The loop of `std::move_backward(first, last, d_last)` inside one buffer, run for
`n = last - first` elements: `*(--d_last) = std::move(*(--last))`. -/
def std_move_backward_loop : Nat → Nat → Nat → ArrayPtr α → ArrayPtr α
  | 0, _, _, buf => buf
  | n + 1, last, d_last, buf =>
    std_move_backward_loop n (last - 1) (d_last - 1) (buf.store (d_last - 1) (buf.index (last - 1)))

/-- The algorithm `std::move_backward(first, last, d_last)` inside the buffer `buf`. -/
def std_move_backward (buf : ArrayPtr α) (first last d_last : Nat) : ArrayPtr α :=
  std_move_backward_loop (last - first) last d_last buf

/-- The loop of `std::fill(first, last, value)`, run for `n = last - first` slots:
`*first++ = value`. -/
def std_fill_loop (value : α) : Nat → Nat → ArrayPtr α → ArrayPtr α
  | 0, _, buf => buf
  | n + 1, first, buf => std_fill_loop value n (first + 1) (buf.store first value)

/-- The algorithm `std::fill(first, last, value)` on the buffer `buf`. -/
def std_fill (buf : ArrayPtr α) (first last : Nat) (value : α) : ArrayPtr α :=
  std_fill_loop value (last - first) first buf

/-- The loop of `std::equal(first1, last1, first2)`, run for the `n = last1 - first1` elements
of the first range: `if (!(*first1 == *first2)) return false;`, and `true` after the loop. -/
def std_equal_loop [BEq α] (a b : ArrayPtr α) : Nat → Nat → Nat → Bool
  | 0, _, _ => true
  | n + 1, first1, first2 =>
    if !(a.index first1 == b.index first2) then false
    else std_equal_loop a b n (first1 + 1) (first2 + 1)

/-- The algorithm `std::equal(first1, last1, first2)` on the buffers `a` and `b`. -/
def std_equal [BEq α] (a : ArrayPtr α) (first1 last1 : Nat) (b : ArrayPtr α) (first2 : Nat) :
    Bool :=
  std_equal_loop a b (last1 - first1) first1 first2

/-- The loop of `std::lexicographical_compare(first1, last1, first2, last2)`; `n1` and `n2` are
the numbers of elements left in the two ranges.  While both ranges have elements:
`if (*first1 < *first2) return true; if (*first2 < *first1) return false;`; after the loop
`return first1 == last1 && first2 != last2`. -/
def std_lexicographical_compare_loop [LT α] [DecidableRel (fun x y : α => x < y)]
    (a b : ArrayPtr α) : Nat → Nat → Nat → Nat → Bool
  | 0, n2, _, _ => n2 != 0
  | _ + 1, 0, _, _ => false
  | n1 + 1, n2 + 1, first1, first2 =>
    if a.index first1 < b.index first2 then true
    else if b.index first2 < a.index first1 then false
    else std_lexicographical_compare_loop a b n1 n2 (first1 + 1) (first2 + 1)

/-- The algorithm `std::lexicographical_compare(first1, last1, first2, last2)` on the buffers
`a` and `b`. -/
def std_lexicographical_compare [LT α] [DecidableRel (fun x y : α => x < y)]
    (a : ArrayPtr α) (first1 last1 : Nat) (b : ArrayPtr α) (first2 last2 : Nat) : Bool :=
  std_lexicographical_compare_loop a b (last1 - first1) (last2 - first2) first1 first2

end Algorithms

/-- The data members of `SimpleVector<Type>`, with their default member initialisers. -/
structure SimpleVector (α : Type) where
  capacity_ : Nat := 0
  size_ : Nat := 0
  raw_vector_ : ArrayPtr α := []
  deriving DecidableEq, Repr

/-- An argument received by reference (`const Type&` or `Type&&`): the object referred to is
either a value held outside the vector, or the element `raw_vector_[index]` of the vector the
member function is called on. -/
inductive Ref (α : Type) where
  | value (x : α)
  | element (index : Nat)
  deriving DecidableEq, Repr

/-- Reading through the reference while the vector's buffer is `buf`. -/
def Ref.read {α : Type} [Inhabited α] (r : Ref α) (buf : ArrayPtr α) : α :=
  match r with
  | .value x => x
  | .element index => buf.index index

/-- The right operand of an assignment or swap: the object itself (`this == &rhs`) or another
object. -/
inductive Operand (α : Type) where
  | self
  | other (rhs : SimpleVector α)
  deriving DecidableEq, Repr

namespace SimpleVector

variable {α : Type} [Inhabited α]

/-- The outcome of a call: the value returned or the exception thrown, and the object after the
call. -/
abbrev Outcome (ρ : Type) (α : Type) := Except Error ρ × SimpleVector α

/-- `SimpleVector() noexcept = default`. -/
def ctor_default : SimpleVector α :=
  {}

/-- `GetCapacity()`. -/
def GetCapacity (v : SimpleVector α) : Nat :=
  v.capacity_

/-- `GetSize()`. -/
def GetSize (v : SimpleVector α) : Nat :=
  v.size_

/-- `IsEmpty()`. -/
def IsEmpty (v : SimpleVector α) : Bool :=
  v.size_ == 0

/-- `begin()`: the position of slot 0. -/
def begin_ (_v : SimpleVector α) : Nat :=
  0

/-- `end()`: `&raw_vector_[size_]`. -/
def end_ (v : SimpleVector α) : Nat :=
  v.size_

/-- The logical sequence of the vector: the values in the range `[begin(), end())`. -/
def toList (v : SimpleVector α) : List α :=
  v.raw_vector_.take v.size_

/-- `swap(SimpleVector& other)`: the pair of `*this` and `other` after the call. -/
def swap (v other : SimpleVector α) : SimpleVector α × SimpleVector α :=
  let bufs := ArrayPtr.swap v.raw_vector_ other.raw_vector_
  ({ capacity_ := other.capacity_, size_ := other.size_, raw_vector_ := bufs.1 },
   { capacity_ := v.capacity_, size_ := v.size_, raw_vector_ := bufs.2 })

/-- `SimpleVector(size_t size, const Type& value)`. -/
def ctor_size_value (mem : Nat → Bool) (size : Nat) (value : α) :
    Except Error (SimpleVector α) :=
  match ArrayPtr.allocate mem size with
  | .error e => .error e
  | .ok raw =>
    let v : SimpleVector α := { capacity_ := size, size_ := size, raw_vector_ := raw }
    .ok { v with raw_vector_ := std_fill v.raw_vector_ v.begin_ v.end_ value }

/-- `explicit SimpleVector(size_t size)`, which delegates to `SimpleVector(size, Type())`. -/
def ctor_size (mem : Nat → Bool) (size : Nat) : Except Error (SimpleVector α) :=
  ctor_size_value mem size default

/-- `Assign(InputIterator s, InputIterator w)`; the range is `[s, w)` of the buffer `src`. -/
def Assign (mem : Nat → Bool) (v : SimpleVector α) (src : ArrayPtr α) (s w : Nat) :
    Outcome Unit α :=
  let size := w - s
  match ctor_size mem size with
  | .error e => (.error e, v)
  | .ok tmp =>
    let tmp :=
      if size > 0 then { tmp with raw_vector_ := std_move src s w tmp.raw_vector_ tmp.begin_ }
      else tmp
    (.ok (), (swap v tmp).1)

/-- `SimpleVector(std::initializer_list<Type> init)`. -/
def ctor_init (mem : Nat → Bool) (init : List α) : Except Error (SimpleVector α) :=
  match Assign mem {} init 0 init.length with
  | (.error e, _) => .error e
  | (.ok _, v) => .ok v

/-- `operator=(const SimpleVector& rhs)`. -/
def copy_assign (mem : Nat → Bool) (v : SimpleVector α) : Operand α → Outcome Unit α
  | .self => (.ok (), v)
  | .other rhs => Assign mem v rhs.raw_vector_ rhs.begin_ rhs.end_

/-- `SimpleVector(const SimpleVector& other)`. -/
def ctor_copy (mem : Nat → Bool) (other : SimpleVector α) : Except Error (SimpleVector α) :=
  match copy_assign mem {} (.other other) with
  | (.error e, _) => .error e
  | (.ok _, v) => .ok v

/-- `operator=(SimpleVector&& rhs)`: the pair of `*this` and `rhs` after the call. -/
def move_assign (v : SimpleVector α) : Operand α → SimpleVector α × Operand α
  | .self => (v, .self)
  | .other rhs =>
    let bufs := ArrayPtr.swap (ArrayPtr.Delete v.raw_vector_) rhs.raw_vector_
    ({ capacity_ := rhs.capacity_, size_ := rhs.size_, raw_vector_ := bufs.1 },
     .other { capacity_ := 0, size_ := 0, raw_vector_ := bufs.2 })

/-- `SimpleVector(SimpleVector&& other)`: the new object and `other` after the call. -/
def ctor_move (other : SimpleVector α) : SimpleVector α × Operand α :=
  move_assign {} (.other other)

/-- `operator[](size_t index)`, read through the returned reference. -/
def subscript (v : SimpleVector α) (index : Nat) : Outcome α α :=
  if ¬ index < v.size_ then (.error .assertion_failed, v)
  else (.ok (v.raw_vector_.index index), v)

/-- `operator[](size_t index)`, followed by an assignment of `value` through the returned
reference. -/
def subscript_assign (v : SimpleVector α) (index : Nat) (value : α) : Outcome Unit α :=
  if ¬ index < v.size_ then (.error .assertion_failed, v)
  else (.ok (), { v with raw_vector_ := v.raw_vector_.store index value })

/-- `At(size_t index)`, read through the returned reference. -/
def At (v : SimpleVector α) (index : Nat) : Outcome α α :=
  if index ≥ v.size_ then (.error .out_of_range, v)
  else (.ok (v.raw_vector_.index index), v)

/-- `Clear()`. -/
def Clear (v : SimpleVector α) : SimpleVector α :=
  { v with size_ := 0 }

/-- `ResizeCapacity(size_t new_capacity)`. -/
def ResizeCapacity (mem : Nat → Bool) (v : SimpleVector α) (new_capacity : Nat) :
    Outcome Unit α :=
  match ArrayPtr.allocate mem new_capacity with
  | .error e => (.error e, v)
  | .ok tmp_raw_vector =>
    let tmp_raw_vector := std_move v.raw_vector_ v.begin_ v.end_ tmp_raw_vector 0
    (.ok (), { v with raw_vector_ := tmp_raw_vector, capacity_ := new_capacity })

/-- `Reserve(size_t new_capacity)`. -/
def Reserve (mem : Nat → Bool) (v : SimpleVector α) (new_capacity : Nat) : Outcome Unit α :=
  if new_capacity > v.capacity_ then ResizeCapacity mem v new_capacity
  else (.ok (), v)

/-- `SimpleVector(const ReserveProxyObj& Rsrv)`; `value` is `Rsrv.GetValue()`. -/
def ctor_reserve (mem : Nat → Bool) (value : Nat) : Except Error (SimpleVector α) :=
  match Reserve mem {} value with
  | (.error e, _) => .error e
  | (.ok _, v) => .ok v

/-- `Resize(size_t new_size)`.  The loop of the second branch, `*it = std::move(Type{})` for
`it` from `&raw_vector_[size_]` up to `&raw_vector_[new_size]`, is the loop of `std::fill`. -/
def Resize (mem : Nat → Bool) (v : SimpleVector α) (new_size : Nat) : Outcome Unit α :=
  if new_size ≤ v.size_ then (.ok (), { v with size_ := new_size })
  else if new_size ≤ v.capacity_ then
    (.ok (), { v with raw_vector_ := std_fill v.raw_vector_ v.size_ new_size default,
                      size_ := new_size })
  else
    match ResizeCapacity mem v (max new_size (2 * v.capacity_)) with
    | (.error e, v1) => (.error e, v1)
    | (.ok _, v1) => (.ok (), { v1 with size_ := new_size })

/-- `PushBack(const Type& value)`; `PushBack(Type&& value)` has the same body, with
`std::move(value)` in place of `value`, which under the convention on moves leaves the object
referred to as it is.  When the vector is full, `ResizeCapacity` has replaced and released the
old buffer before `value` is read in `raw_vector_[size_++] = value`: a reference to an own
element then dangles. -/
def PushBack (mem : Nat → Bool) (v : SimpleVector α) (value : Ref α) : Outcome Unit α :=
  if v.capacity_ == v.size_ then
    match ResizeCapacity mem v (if v.size_ == 0 then 1 else v.size_ * 2) with
    | (.error e, v1) => (.error e, v1)
    | (.ok _, v1) =>
      match value with
      | .value x =>
        (.ok (), { v1 with raw_vector_ := v1.raw_vector_.store v1.size_ x, size_ := v1.size_ + 1 })
      | .element _ => (.error .dangling_reference, v1)
  else
    (.ok (), { v with raw_vector_ := v.raw_vector_.store v.size_ (value.read v.raw_vector_),
                      size_ := v.size_ + 1 })

/-- `PopBack()`. -/
def PopBack (v : SimpleVector α) : Outcome Unit α :=
  if v.IsEmpty then (.error .assertion_failed, v)
  else (.ok (), { v with size_ := v.size_ - 1 })

/-- `Insert(ConstIterator pos, const Type& value)`; the overload taking `Type&&` has the same
body.  The value returned is the position of the inserted element.  On the first path `value`
is read in `*it = std::move(value)`, after `std::move_backward` has shifted the suffix; on the
two reallocating paths it is read from the old buffer, before that buffer is replaced and,
on the last path, after the elements before `pos` have been moved out of it, which under the
convention on moves leaves them as they are. -/
def Insert (mem : Nat → Bool) (v : SimpleVector α) (pos : Nat) (value : Ref α) : Outcome Nat α :=
  if ¬ (pos ≥ v.begin_ ∧ pos ≤ v.end_) then (.error .assertion_failed, v)
  else
    let it := pos
    if v.capacity_ > v.size_ then
      let raw := std_move_backward v.raw_vector_ it v.end_ (v.size_ + 1)
      let raw := raw.store it (value.read raw)
      (.ok it, { v with raw_vector_ := raw, size_ := v.size_ + 1 })
    else if v.capacity_ == 0 then
      match ArrayPtr.allocate mem 1 with
      | .error e => (.error e, v)
      | .ok tmp_raw_vector =>
        let tmp_raw_vector := tmp_raw_vector.store 0 (value.read v.raw_vector_)
        (.ok 0, { capacity_ := 1, size_ := 1, raw_vector_ := tmp_raw_vector })
    else
      let new_capacity := v.size_ * 2
      let insert_index := it - v.begin_
      match ArrayPtr.allocate mem new_capacity with
      | .error e => (.error e, v)
      | .ok tmp_raw_vector =>
        let tmp_raw_vector := std_move v.raw_vector_ v.begin_ it tmp_raw_vector 0
        let tmp_raw_vector := tmp_raw_vector.store insert_index (value.read v.raw_vector_)
        let tmp_raw_vector := std_move v.raw_vector_ it v.end_ tmp_raw_vector (insert_index + 1)
        (.ok insert_index,
         { capacity_ := new_capacity, size_ := v.size_ + 1, raw_vector_ := tmp_raw_vector })

/-- The loop of `Erase`: `for (auto i = index; i < size_ - 1; ++i)`, run for its
`n = size_ - 1 - index` iterations `raw_vector_[i] = std::move(raw_vector_[i + 1])`. -/
def Erase_loop : Nat → Nat → ArrayPtr α → ArrayPtr α
  | 0, _, raw => raw
  | n + 1, i, raw => Erase_loop n (i + 1) (raw.store i (raw.index (i + 1)))

/-- `Erase(ConstIterator pos)`.  The value returned is the position passed in. -/
def Erase (v : SimpleVector α) (pos : Nat) : Outcome Nat α :=
  if ¬ (pos ≥ v.begin_ ∧ pos < v.end_) then (.error .assertion_failed, v)
  else
    let it := pos
    let index := it - v.begin_
    let raw :=
      if v.size_ > index + 1 then Erase_loop (v.size_ - 1 - index) index v.raw_vector_
      else v.raw_vector_
    (.ok it, { v with raw_vector_ := raw, size_ := v.size_ - 1 })

/-- `operator==(const SimpleVector& lhs, const SimpleVector& rhs)`: the identity test
`&lhs == &rhs`, or else equal sizes and `std::equal` over the elements of `lhs`. -/
def operator_eq [BEq α] (lhs : SimpleVector α) : Operand α → Bool
  | .self => true
  | .other rhs =>
    lhs.GetSize == rhs.GetSize &&
      std_equal lhs.raw_vector_ lhs.begin_ lhs.end_ rhs.raw_vector_ rhs.begin_

/-- `operator!=(const SimpleVector& lhs, const SimpleVector& rhs)`. -/
def operator_ne [BEq α] (lhs : SimpleVector α) (rhs : Operand α) : Bool :=
  !(operator_eq lhs rhs)

/-- `operator<(const SimpleVector& lhs, const SimpleVector& rhs)`.  It has no identity test, so
comparing an object with itself is `operator_lt v v`. -/
def operator_lt [LT α] [DecidableRel (fun x y : α => x < y)] (lhs rhs : SimpleVector α) : Bool :=
  std_lexicographical_compare lhs.raw_vector_ lhs.begin_ lhs.end_
    rhs.raw_vector_ rhs.begin_ rhs.end_

/-- `operator<=(const SimpleVector& lhs, const SimpleVector& rhs)`. -/
def operator_le [LT α] [DecidableRel (fun x y : α => x < y)] (lhs rhs : SimpleVector α) : Bool :=
  !(operator_lt rhs lhs)

/-- `operator>(const SimpleVector& lhs, const SimpleVector& rhs)`. -/
def operator_gt [LT α] [DecidableRel (fun x y : α => x < y)] (lhs rhs : SimpleVector α) : Bool :=
  operator_lt rhs lhs

/-- `operator>=(const SimpleVector& lhs, const SimpleVector& rhs)`. -/
def operator_ge [LT α] [DecidableRel (fun x y : α => x < y)] (lhs rhs : SimpleVector α) : Bool :=
  !(operator_lt lhs rhs)

/-- The free store, for questions of ownership: the buffers that `new[]` has handed out, by
address; the entry of a buffer that has been released is `none`. -/
abbrev Store (α : Type) := List (Option (ArrayPtr α))

/-- A `SimpleVector` object as it lies in memory: the two counters, and the pointer that its
`raw_vector_` holds (`none` is the null pointer of an `ArrayPtr` that owns nothing). -/
structure Object where
  capacity_ : Nat := 0
  size_ : Nat := 0
  raw_ptr_ : Option Nat := none
  deriving DecidableEq, Repr

/-- Modelled from the spec: the constructor `ArrayPtr(size_t)` of the missing `array_ptr.h`, on
the free store (spec 4.1, "allocate(n)"): a buffer of `n` default-valued slots at an address
that no buffer has had before, or the allocation error. -/
def Store.allocate (mem : Nat → Bool) (M : Store α) (n : Nat) :
    Except Error (Store α × Option Nat) :=
  if mem n then .ok (M ++ [some (List.replicate n default)], some M.length)
  else .error .bad_alloc

/-- Modelled from the spec: the destructor of `ArrayPtr` (spec 4.1, "release()"): the buffer the
pointer refers to is released; nothing happens for the null pointer. -/
def Store.release (M : Store α) : Option Nat → Store α
  | none => M
  | some a => M.set a none

/-- The contents of the buffer a pointer refers to; the null pointer and a released buffer have
no slots. -/
def Store.buffer (M : Store α) : Option Nat → ArrayPtr α
  | none => []
  | some a => (M.getD a none).getD []

/-- The writes of an algorithm into the buffer a pointer refers to, which leave `buf` as its
contents. -/
def Store.assign (M : Store α) : Option Nat → ArrayPtr α → Store α
  | none, _ => M
  | some a, buf => M.set a (some buf)

/-- `swap(SimpleVector& other)` on objects in memory: the pointers and the counters are
exchanged, the free store is not touched.  The result is the pair of `*this` and `other` after
the call. -/
def Object.swap (o other : Object) : Object × Object :=
  ({ capacity_ := other.capacity_, size_ := other.size_, raw_ptr_ := other.raw_ptr_ },
   { capacity_ := o.capacity_, size_ := o.size_, raw_ptr_ := o.raw_ptr_ })

/-- `SimpleVector(size_t size, const Type& value)` on the free store: the store after the call
and the new object. -/
def Store.ctor_size_value (mem : Nat → Bool) (M : Store α) (size : Nat) (value : α) :
    Except Error (Store α × Object) :=
  match M.allocate mem size with
  | .error e => .error e
  | .ok (M1, raw) =>
    let o : Object := { capacity_ := size, size_ := size, raw_ptr_ := raw }
    .ok (M1.assign o.raw_ptr_ (std_fill (M1.buffer o.raw_ptr_) 0 o.size_ value), o)

/-- What a copy assignment leaves: the value returned or the exception thrown, the free store,
and the two objects `*this` and `rhs`. -/
structure Copied (α : Type) where
  result : Except Error Unit
  store : Store α
  this : Object
  rhs : Object

/-- `operator=(const SimpleVector& rhs)` for `this != &rhs`, on the free store: the body of
`Assign(rhs.begin(), rhs.end())`.  The temporary `tmp` gets a new buffer, the elements of `rhs`
are copied into it, `swap(tmp)` exchanges pointers and counters, and the destructor of `tmp`
releases the buffer that `*this` owned before.  `rhs` is a reference to const: nothing is
written through it. -/
def Store.copy_assign (mem : Nat → Bool) (M : Store α) (this rhs : Object) : Copied α :=
  let size := rhs.size_ - 0
  match Store.ctor_size_value mem M size default with
  | .error e => { result := .error e, store := M, this := this, rhs := rhs }
  | .ok (M1, tmp) =>
    let M2 :=
      if size > 0 then
        M1.assign tmp.raw_ptr_
          (std_move (M1.buffer rhs.raw_ptr_) 0 rhs.size_ (M1.buffer tmp.raw_ptr_) 0)
      else M1
    let swapped := Object.swap this tmp
    { result := .ok (), store := M2.release swapped.2.raw_ptr_, this := swapped.1, rhs := rhs }

/-- `SimpleVector(const SimpleVector& other)` on the free store: `*this = other` on an object
whose members have their default initialisers. -/
def Store.ctor_copy (mem : Nat → Bool) (M : Store α) (other : Object) : Copied α :=
  Store.copy_assign mem M {} other

/-- The ordering of the specification, in its words: the sequence `s` precedes the sequence `t`
lexicographically when the two agree on their first `k` elements and then either `s` has ended
and `t` has not (`s` is a proper prefix of `t`), or position `k` is the first one at which they
differ and the element of `s` there is the smaller one. -/
def LexPrecedes [LT α] (s t : List α) : Prop :=
  ∃ k, s.take k = t.take k ∧
    ((k = s.length ∧ k < t.length) ∨ (∃ x y, s[k]? = some x ∧ t[k]? = some y ∧ x < y))

/-- A test driver, not a member of the class: `PushBack` is called with the values of `values`
in turn, each a value held outside the vector, and the run stops at the first call that
fails. -/
def PushBackAll (mem : Nat → Bool) (v : SimpleVector α) : List α → Outcome Unit α
  | [] => (.ok (), v)
  | value :: values =>
    match PushBack mem v (.value value) with
    | (.error e, v1) => (.error e, v1)
    | (.ok _, v1) => PushBackAll mem v1 values

/-- An allocator that never fails, for the concrete examples. -/
def mem_unlimited : Nat → Bool :=
  fun _ => true

/-- The vector `{1, 2, 3}`, as the constructor from an initializer list builds it. -/
def example_1_2_3 : SimpleVector Nat :=
  { capacity_ := 3, size_ := 3, raw_vector_ := [1, 2, 3] }

/-- The vector `{1, 9, 2, 3}` with capacity 6, as `Insert` leaves `{1, 2, 3}`. -/
def example_1_9_2_3 : SimpleVector Nat :=
  { capacity_ := 6, size_ := 4, raw_vector_ := [1, 9, 2, 3, 0, 0] }

/-- The vector `{5, 6}` with capacity 4, as `PushBack(5)`, `PushBack(6)`, `PushBack(7)` and
`PopBack()` leave a default-constructed vector: slot 2 still holds the 7. -/
def example_5_6 : SimpleVector Nat :=
  { capacity_ := 4, size_ := 2, raw_vector_ := [5, 6, 7, 0] }

/-- The representation invariant of the class: `size_` does not exceed `capacity_`, and the
buffer owns exactly `capacity_` slots. -/
def WF (v : SimpleVector α) : Prop :=
  v.size_ ≤ v.capacity_ ∧ v.raw_vector_.length = v.capacity_

instance (v : SimpleVector α) : Decidable (WF v) :=
  inferInstanceAs (Decidable (_ ∧ _))

/-- The states an object of the class can be in: what a constructor that returns produces, and
what a public member function leaves behind (whether it returns or throws) when called on a
reachable object with reachable arguments.  A call whose `assert` fails leaves the state it was
called on.  A call that runs into undefined behaviour (`Error.dangling_reference`) leaves no
state at all.  An object swapped with itself is left as it is and gives no new state. -/
inductive Reachable : SimpleVector α → Prop where
  | ctor_default : Reachable ctor_default
  | ctor_size (mem : Nat → Bool) (size : Nat) (v : SimpleVector α) :
      ctor_size mem size = .ok v → Reachable v
  | ctor_size_value (mem : Nat → Bool) (size : Nat) (value : α) (v : SimpleVector α) :
      ctor_size_value mem size value = .ok v → Reachable v
  | ctor_init (mem : Nat → Bool) (init : List α) (v : SimpleVector α) :
      ctor_init mem init = .ok v → Reachable v
  | ctor_reserve (mem : Nat → Bool) (value : Nat) (v : SimpleVector α) :
      ctor_reserve mem value = .ok v → Reachable v
  | ctor_copy (mem : Nat → Bool) (other v : SimpleVector α) :
      Reachable other → ctor_copy mem other = .ok v → Reachable v
  | ctor_move (other : SimpleVector α) :
      Reachable other → Reachable (ctor_move other).1
  | ctor_move_source (other rhs : SimpleVector α) :
      Reachable other → (ctor_move other).2 = .other rhs → Reachable rhs
  | copy_assign_self (mem : Nat → Bool) (v : SimpleVector α) :
      Reachable v → Reachable (copy_assign mem v .self).2
  | copy_assign (mem : Nat → Bool) (v rhs : SimpleVector α) :
      Reachable v → Reachable rhs → Reachable (copy_assign mem v (.other rhs)).2
  | move_assign_self (v : SimpleVector α) :
      Reachable v → Reachable (move_assign v .self).1
  | move_assign (v rhs : SimpleVector α) :
      Reachable v → Reachable rhs → Reachable (move_assign v (.other rhs)).1
  | move_assign_source (v rhs rhs1 : SimpleVector α) :
      Reachable v → Reachable rhs → (move_assign v (.other rhs)).2 = .other rhs1 →
      Reachable rhs1
  | swap_this (v other : SimpleVector α) :
      Reachable v → Reachable other → Reachable (swap v other).1
  | swap_other (v other : SimpleVector α) :
      Reachable v → Reachable other → Reachable (swap v other).2
  | subscript_assign (v : SimpleVector α) (index : Nat) (value : α) :
      Reachable v → Reachable (subscript_assign v index value).2
  | At (v : SimpleVector α) (index : Nat) :
      Reachable v → Reachable (At v index).2
  | Clear (v : SimpleVector α) :
      Reachable v → Reachable (Clear v)
  | Reserve (mem : Nat → Bool) (v : SimpleVector α) (new_capacity : Nat) :
      Reachable v → Reachable (Reserve mem v new_capacity).2
  | Resize (mem : Nat → Bool) (v : SimpleVector α) (new_size : Nat) :
      Reachable v → Reachable (Resize mem v new_size).2
  | PushBack (mem : Nat → Bool) (v : SimpleVector α) (value : Ref α) :
      Reachable v → (PushBack mem v value).1 ≠ .error .dangling_reference →
      Reachable (PushBack mem v value).2
  | PopBack (v : SimpleVector α) :
      Reachable v → Reachable (PopBack v).2
  | Insert (mem : Nat → Bool) (v : SimpleVector α) (pos : Nat) (value : Ref α) :
      Reachable v → Reachable (Insert mem v pos value).2
  | Erase (v : SimpleVector α) (pos : Nat) :
      Reachable v → Reachable (Erase v pos).2

end SimpleVector

/-! ## Lemmas on the buffer algorithms: what each loop leaves in every slot -/

theorem ArrayPtr.some_index {α : Type} [Inhabited α] (buf : ArrayPtr α) (i : Nat)
    (h : i < buf.length) :
    some (buf.index i) = buf[i]? := by
  simp [ArrayPtr.index, List.getD_eq_getElem?_getD, List.getElem?_eq_getElem h]

theorem length_std_move_loop {α : Type} [Inhabited α] (src : ArrayPtr α) (n first : Nat)
    (dst : ArrayPtr α) (d : Nat) :
    (std_move_loop src n first dst d).length = dst.length := by
  induction n generalizing first dst d with
  | zero => rfl
  | succ n ih => simp [std_move_loop, ih, ArrayPtr.store]

theorem getElem?_std_move_loop {α : Type} [Inhabited α] (src : ArrayPtr α) (n first : Nat)
    (dst : ArrayPtr α) (d : Nat)
    (h : d + n ≤ dst.length) (k : Nat) :
    (std_move_loop src n first dst d)[k]? =
      if d ≤ k ∧ k < d + n then some (src.index (first + (k - d))) else dst[k]? := by
  induction n generalizing first dst d with
  | zero =>
    have : ¬ (d ≤ k ∧ k < d + 0) := by omega
    rw [std_move_loop, if_neg this]
  | succ n ih =>
    have hlen : d + 1 + n ≤ (dst.store d (src.index first)).length := by
      simp [ArrayPtr.store]; omega
    rw [std_move_loop, ih _ _ _ hlen]
    by_cases hk : k = d
    · subst hk
      have h1 : ¬ (k + 1 ≤ k ∧ k < k + 1 + n) := by omega
      have h2 : k ≤ k ∧ k < k + (n + 1) := by omega
      have h3 : k < dst.length := by omega
      rw [if_neg h1, if_pos h2]
      simp [ArrayPtr.store, List.getElem?_set, h3]
    · by_cases hr : d + 1 ≤ k ∧ k < d + 1 + n
      · have h2 : d ≤ k ∧ k < d + (n + 1) := by omega
        have h3 : first + 1 + (k - (d + 1)) = first + (k - d) := by omega
        rw [if_pos hr, if_pos h2, h3]
      · have h2 : ¬ (d ≤ k ∧ k < d + (n + 1)) := by omega
        have h3 : ¬ d = k := by omega
        rw [if_neg hr, if_neg h2]
        simp [ArrayPtr.store, List.getElem?_set, h3]

theorem length_std_fill_loop {α : Type} (value : α) (n first : Nat) (buf : ArrayPtr α) :
    (std_fill_loop value n first buf).length = buf.length := by
  induction n generalizing first buf with
  | zero => rfl
  | succ n ih => simp [std_fill_loop, ih, ArrayPtr.store]

theorem getElem?_std_fill_loop {α : Type} (value : α) (n first : Nat) (buf : ArrayPtr α)
    (h : first + n ≤ buf.length) (k : Nat) :
    (std_fill_loop value n first buf)[k]? =
      if first ≤ k ∧ k < first + n then some value else buf[k]? := by
  induction n generalizing first buf with
  | zero =>
    have : ¬ (first ≤ k ∧ k < first + 0) := by omega
    rw [std_fill_loop, if_neg this]
  | succ n ih =>
    have hlen : first + 1 + n ≤ (buf.store first value).length := by
      simp [ArrayPtr.store]; omega
    rw [std_fill_loop, ih _ _ hlen]
    by_cases hk : k = first
    · subst hk
      have h1 : ¬ (k + 1 ≤ k ∧ k < k + 1 + n) := by omega
      have h2 : k ≤ k ∧ k < k + (n + 1) := by omega
      have h3 : k < buf.length := by omega
      rw [if_neg h1, if_pos h2]
      simp [ArrayPtr.store, List.getElem?_set, h3]
    · by_cases hr : first + 1 ≤ k ∧ k < first + 1 + n
      · have h2 : first ≤ k ∧ k < first + (n + 1) := by omega
        rw [if_pos hr, if_pos h2]
      · have h2 : ¬ (first ≤ k ∧ k < first + (n + 1)) := by omega
        have h3 : ¬ first = k := by omega
        rw [if_neg hr, if_neg h2]
        simp [ArrayPtr.store, List.getElem?_set, h3]

theorem length_std_move_backward_loop {α : Type} [Inhabited α] (n last d_last : Nat)
    (buf : ArrayPtr α) :
    (std_move_backward_loop n last d_last buf).length = buf.length := by
  induction n generalizing last d_last buf with
  | zero => rfl
  | succ n ih => simp [std_move_backward_loop, ih, ArrayPtr.store]

theorem getElem?_std_move_backward_loop {α : Type} [Inhabited α] (n last : Nat)
    (buf : ArrayPtr α)
    (hn : n ≤ last) (h : last < buf.length) (k : Nat) :
    (std_move_backward_loop n last (last + 1) buf)[k]? =
      if last - n < k ∧ k ≤ last then buf[k - 1]? else buf[k]? := by
  induction n generalizing last buf with
  | zero =>
    have : ¬ (last - 0 < k ∧ k ≤ last) := by omega
    rw [std_move_backward_loop, if_neg this]
  | succ n ih =>
    obtain ⟨m, rfl⟩ : ∃ m, last = m + 1 := ⟨last - 1, by omega⟩
    have hlen : m < (buf.store (m + 1) (buf.index m)).length := by
      simp [ArrayPtr.store]; omega
    rw [std_move_backward_loop]
    simp only [Nat.add_sub_cancel]
    rw [ih m _ (by omega) hlen]
    by_cases hk : k = m + 1
    · subst hk
      have h1 : ¬ (m - n < m + 1 ∧ m + 1 ≤ m) := by omega
      have h2 : m + 1 - (n + 1) < m + 1 ∧ m + 1 ≤ m + 1 := by omega
      rw [if_neg h1, if_pos h2]
      simp only [Nat.add_sub_cancel]
      rw [← ArrayPtr.some_index buf m (by omega)]
      simp [ArrayPtr.store, List.getElem?_set, h]
    · by_cases hr : m - n < k ∧ k ≤ m
      · have h2 : m + 1 - (n + 1) < k ∧ k ≤ m + 1 := by omega
        have h3 : ¬ m + 1 = k - 1 := by omega
        rw [if_pos hr, if_pos h2]
        simp [ArrayPtr.store, List.getElem?_set, h3]
      · have h2 : ¬ (m + 1 - (n + 1) < k ∧ k ≤ m + 1) := by omega
        have h3 : ¬ m + 1 = k := by omega
        rw [if_neg hr, if_neg h2]
        simp [ArrayPtr.store, List.getElem?_set, h3]

theorem SimpleVector.length_Erase_loop {α : Type} [Inhabited α] (n i : Nat) (raw : ArrayPtr α) :
    (SimpleVector.Erase_loop n i raw).length = raw.length := by
  induction n generalizing i raw with
  | zero => rfl
  | succ n ih => simp [SimpleVector.Erase_loop, ih, ArrayPtr.store]

theorem SimpleVector.getElem?_Erase_loop {α : Type} [Inhabited α] (n i : Nat) (raw : ArrayPtr α)
    (h : i + n < raw.length) (k : Nat) :
    (SimpleVector.Erase_loop n i raw)[k]? =
      if i ≤ k ∧ k < i + n then raw[k + 1]? else raw[k]? := by
  induction n generalizing i raw with
  | zero =>
    have : ¬ (i ≤ k ∧ k < i + 0) := by omega
    rw [SimpleVector.Erase_loop, if_neg this]
  | succ n ih =>
    have hlen : i + 1 + n < (raw.store i (raw.index (i + 1))).length := by
      simp [ArrayPtr.store]; omega
    rw [SimpleVector.Erase_loop, ih _ _ hlen]
    by_cases hk : k = i
    · subst hk
      have h1 : ¬ (k + 1 ≤ k ∧ k < k + 1 + n) := by omega
      have h2 : k ≤ k ∧ k < k + (n + 1) := by omega
      have h3 : k < raw.length := by omega
      rw [if_neg h1, if_pos h2]
      rw [← ArrayPtr.some_index raw (k + 1) (by omega)]
      simp [ArrayPtr.store, List.getElem?_set, h3]
    · by_cases hr : i + 1 ≤ k ∧ k < i + 1 + n
      · have h2 : i ≤ k ∧ k < i + (n + 1) := by omega
        have h3 : ¬ i = k + 1 := by omega
        rw [if_pos hr, if_pos h2]
        simp [ArrayPtr.store, List.getElem?_set, h3]
      · have h2 : ¬ (i ≤ k ∧ k < i + (n + 1)) := by omega
        have h3 : ¬ i = k := by omega
        rw [if_neg hr, if_neg h2]
        simp [ArrayPtr.store, List.getElem?_set, h3]

/-! ## Closed forms of the buffer algorithms -/

theorem std_move_eq {α : Type} [Inhabited α] (src : ArrayPtr α) (first last : Nat)
    (dst : ArrayPtr α) (d : Nat) (h1 : first ≤ last) (h2 : last ≤ src.length)
    (h3 : d + (last - first) ≤ dst.length) :
    std_move src first last dst d =
      dst.take d ++ (src.take last).drop first ++ dst.drop (d + (last - first)) := by
  apply List.ext_getElem?
  intro k
  rw [std_move, getElem?_std_move_loop src _ first dst d h3 k]
  have hl1 : (List.take d dst).length = d := by simp; omega
  have hl2 : ((List.take last src).drop first).length = last - first := by simp; omega
  by_cases hk : d ≤ k ∧ k < d + (last - first)
  · rw [if_pos hk, ArrayPtr.some_index _ _ (by omega), List.append_assoc,
      List.getElem?_append_right (by omega), List.getElem?_append_left (by omega),
      List.getElem?_drop, List.getElem?_take, hl1, if_pos (by omega)]
  · rw [if_neg hk]
    by_cases hk2 : k < d
    · rw [List.append_assoc, List.getElem?_append_left (by omega), List.getElem?_take,
        if_pos hk2]
    · rw [List.getElem?_append_right (by simp; omega), List.getElem?_drop]
      congr 1
      simp
      omega

theorem std_fill_eq {α : Type} (buf : ArrayPtr α) (first last : Nat) (value : α)
    (h1 : first ≤ last) (h2 : last ≤ buf.length) :
    std_fill buf first last value =
      buf.take first ++ List.replicate (last - first) value ++ buf.drop last := by
  apply List.ext_getElem?
  intro k
  rw [std_fill, getElem?_std_fill_loop value _ first buf (by omega) k]
  have hl1 : (List.take first buf).length = first := by simp; omega
  by_cases hk : first ≤ k ∧ k < first + (last - first)
  · rw [if_pos hk, List.append_assoc, List.getElem?_append_right (by omega),
      List.getElem?_append_left (by simp; omega), List.getElem?_replicate, if_pos (by omega)]
  · rw [if_neg hk]
    by_cases hk2 : k < first
    · rw [List.append_assoc, List.getElem?_append_left (by omega), List.getElem?_take,
        if_pos hk2]
    · rw [List.getElem?_append_right (by simp; omega), List.getElem?_drop]
      congr 1
      simp
      omega

theorem std_move_backward_store_eq {α : Type} [Inhabited α] (raw : ArrayPtr α) (pos size : Nat)
    (value : α) (h1 : pos ≤ size) (h2 : size < raw.length) :
    (std_move_backward raw pos size (size + 1)).store pos value =
      raw.take pos ++ value :: (raw.take size).drop pos ++ raw.drop (size + 1) := by
  apply List.ext_getElem?
  intro k
  have hl1 : (List.take pos raw).length = pos := by simp; omega
  have hl2 : ((List.take size raw).drop pos).length = size - pos := by simp; omega
  rw [ArrayPtr.store, List.getElem?_set, std_move_backward, length_std_move_backward_loop,
    getElem?_std_move_backward_loop _ _ _ (by omega) h2 k]
  by_cases hk : pos = k
  · subst hk
    rw [if_pos rfl, if_pos (by omega), List.append_assoc, List.getElem?_append_right (by omega),
      hl1, Nat.sub_self, List.cons_append, List.getElem?_cons_zero]
  · rw [if_neg hk]
    by_cases hk2 : size - (size - pos) < k ∧ k ≤ size
    · rw [if_pos hk2, List.append_assoc, List.getElem?_append_right (by omega), hl1,
        List.cons_append, List.getElem?_cons, if_neg (by omega),
        List.getElem?_append_left (by omega),
        List.getElem?_drop, List.getElem?_take, if_pos (by omega)]
      congr 1
      omega
    · rw [if_neg hk2]
      by_cases hk3 : k < pos
      · rw [List.append_assoc, List.getElem?_append_left (by omega), List.getElem?_take,
          if_pos hk3]
      · rw [List.append_assoc, List.getElem?_append_right (by omega), hl1,
          List.cons_append, List.getElem?_cons, if_neg (by omega),
          List.getElem?_append_right (by omega),
          List.getElem?_drop, hl2]
        congr 1
        omega

theorem SimpleVector.Erase_loop_eq {α : Type} [Inhabited α] (raw : ArrayPtr α) (index size : Nat)
    (h1 : index < size) (h2 : size ≤ raw.length) :
    SimpleVector.Erase_loop (size - 1 - index) index raw =
      raw.take index ++ (raw.take size).drop (index + 1) ++ raw.drop (size - 1) := by
  apply List.ext_getElem?
  intro k
  have hl1 : (List.take index raw).length = index := by simp; omega
  have hl2 : ((List.take size raw).drop (index + 1)).length = size - (index + 1) := by
    simp; omega
  rw [SimpleVector.getElem?_Erase_loop _ _ _ (by omega) k]
  by_cases hk : index ≤ k ∧ k < index + (size - 1 - index)
  · rw [if_pos hk, List.append_assoc, List.getElem?_append_right (by omega), hl1,
      List.getElem?_append_left (by omega), List.getElem?_drop, List.getElem?_take,
      if_pos (by omega)]
    congr 1
    omega
  · rw [if_neg hk]
    by_cases hk2 : k < index
    · rw [List.append_assoc, List.getElem?_append_left (by omega), List.getElem?_take,
        if_pos hk2]
    · rw [List.getElem?_append_right (by simp; omega), List.getElem?_drop]
      congr 1
      simp
      omega

theorem set_append_replicate {α : Type} (A : List α) (m : Nat) (d x : α) (hm : 0 < m) :
    (A ++ List.replicate m d).set A.length x = A ++ x :: List.replicate (m - 1) d := by
  obtain ⟨n, rfl⟩ : ∃ n, m = n + 1 := ⟨m - 1, by omega⟩
  simp [List.set_append, List.replicate_succ]


/-! ## The representation invariant is kept by every operation -/

namespace SimpleVector

theorem WF_ResizeCapacity {α : Type} [Inhabited α] (mem : Nat → Bool) (v : SimpleVector α)
    (new_capacity : Nat) (hv : WF v) (hn : v.size_ ≤ new_capacity) :
    WF (ResizeCapacity mem v new_capacity).2 := by
  unfold ResizeCapacity ArrayPtr.allocate
  cases mem new_capacity
  · simpa using hv
  · simp [WF, std_move, length_std_move_loop, hn]

theorem WF_Reserve {α : Type} [Inhabited α] (mem : Nat → Bool) (v : SimpleVector α)
    (new_capacity : Nat) (hv : WF v) : WF (Reserve mem v new_capacity).2 := by
  unfold Reserve
  split
  · exact WF_ResizeCapacity mem v new_capacity hv (by have := hv.1; omega)
  · exact hv

theorem WF_Resize {α : Type} [Inhabited α] (mem : Nat → Bool) (v : SimpleVector α)
    (new_size : Nat) (hv : WF v) : WF (Resize mem v new_size).2 := by
  obtain ⟨h1, h2⟩ := hv
  unfold Resize
  split
  · exact ⟨by show new_size ≤ v.capacity_; omega, h2⟩
  · split
    · refine ⟨by assumption, ?_⟩
      simp [std_fill, length_std_fill_loop, h2]
    · unfold ResizeCapacity ArrayPtr.allocate
      cases mem (max new_size (2 * v.capacity_))
      · exact ⟨h1, h2⟩
      · simp [WF, std_move, length_std_move_loop]

theorem WF_PushBack {α : Type} [Inhabited α] (mem : Nat → Bool) (v : SimpleVector α)
    (value : Ref α) (hv : WF v) : WF (PushBack mem v value).2 := by
  obtain ⟨h1, h2⟩ := hv
  unfold PushBack
  by_cases hc : v.capacity_ = v.size_
  · simp only [hc, beq_self_eq_true, if_true]
    unfold ResizeCapacity ArrayPtr.allocate
    cases mem (if (v.size_ == 0) = true then 1 else v.size_ * 2)
    · exact ⟨h1, h2⟩
    · cases value with
      | value x =>
        by_cases h0 : v.size_ = 0
        · simp [WF, std_move, length_std_move_loop, ArrayPtr.store, h0]
        · simp [WF, std_move, length_std_move_loop, ArrayPtr.store, h0]
          omega
      | element index =>
        by_cases h0 : v.size_ = 0
        · simp [WF, std_move, length_std_move_loop, h0]
        · simp [WF, std_move, length_std_move_loop, h0]
          omega
  · have : (v.capacity_ == v.size_) = false := by simpa using hc
    simp only [this]
    simp [WF, ArrayPtr.store, h2]
    omega

theorem WF_PopBack {α : Type} [Inhabited α] (v : SimpleVector α) (hv : WF v) :
    WF (PopBack v).2 := by
  obtain ⟨h1, h2⟩ := hv
  unfold PopBack
  split
  · exact ⟨h1, h2⟩
  · exact ⟨by show v.size_ - 1 ≤ v.capacity_; omega, h2⟩

theorem WF_Insert {α : Type} [Inhabited α] (mem : Nat → Bool) (v : SimpleVector α)
    (pos : Nat) (value : Ref α) (hv : WF v) : WF (Insert mem v pos value).2 := by
  obtain ⟨h1, h2⟩ := hv
  unfold Insert
  split
  · exact ⟨h1, h2⟩
  · simp only []
    split
    · refine ⟨by show v.size_ + 1 ≤ v.capacity_; omega, ?_⟩
      simp [std_move_backward, length_std_move_backward_loop, ArrayPtr.store, h2]
    · split
      · unfold ArrayPtr.allocate
        cases mem 1
        · exact ⟨h1, h2⟩
        · simp [WF, ArrayPtr.store]
      · unfold ArrayPtr.allocate
        cases mem (v.size_ * 2)
        · exact ⟨h1, h2⟩
        · rename_i hne
          have : v.size_ ≠ 0 := by
            intro h; apply hne; simp; omega
          simp [WF, std_move, length_std_move_loop, ArrayPtr.store]
          omega

theorem WF_Erase {α : Type} [Inhabited α] (v : SimpleVector α) (pos : Nat) (hv : WF v) :
    WF (Erase v pos).2 := by
  obtain ⟨h1, h2⟩ := hv
  unfold Erase
  split
  · exact ⟨h1, h2⟩
  · refine ⟨by show v.size_ - 1 ≤ v.capacity_; omega, ?_⟩
    show List.length (if _ then _ else _) = _
    split
    · rw [length_Erase_loop, h2]
    · exact h2

theorem WF_ctor_size_value {α : Type} [Inhabited α] (mem : Nat → Bool) (size : Nat) (value : α)
    (v : SimpleVector α) (h : ctor_size_value mem size value = .ok v) : WF v := by
  unfold ctor_size_value ArrayPtr.allocate at h
  cases hm : mem size
  · simp [hm] at h
  · simp [hm] at h
    subst h
    simp [WF, std_fill, length_std_fill_loop]

theorem WF_Assign {α : Type} [Inhabited α] (mem : Nat → Bool) (v : SimpleVector α)
    (src : ArrayPtr α) (s w : Nat) (hv : WF v) : WF (Assign mem v src s w).2 := by
  unfold Assign
  simp only []
  split
  · exact hv
  · rename_i tmp htmp
    have ht := WF_ctor_size_value mem _ _ tmp htmp
    split
    · exact ⟨ht.1, by simpa [swap, ArrayPtr.swap, std_move, length_std_move_loop] using ht.2⟩
    · exact ht

theorem Reachable.wf {α : Type} [Inhabited α] {v : SimpleVector α} (h : Reachable v) : WF v := by
  induction h with
  | ctor_default => exact ⟨Nat.le_refl _, rfl⟩
  | ctor_size mem size v h => exact WF_ctor_size_value mem size default v h
  | ctor_size_value mem size value v h => exact WF_ctor_size_value mem size value v h
  | ctor_init mem init v h =>
    have := WF_Assign mem ({} : SimpleVector α) init 0 init.length ⟨Nat.le_refl _, rfl⟩
    unfold SimpleVector.ctor_init at h
    split at h
    · exact absurd h (by simp)
    · rename_i hh
      rw [hh] at this
      simp at h
      exact h ▸ this
  | ctor_reserve mem value v h =>
    have := WF_Reserve mem ({} : SimpleVector α) value ⟨Nat.le_refl _, rfl⟩
    unfold SimpleVector.ctor_reserve at h
    split at h
    · exact absurd h (by simp)
    · rename_i hh
      rw [hh] at this
      simp at h
      exact h ▸ this
  | ctor_copy mem other v _ h ih =>
    have : WF (SimpleVector.copy_assign mem ({} : SimpleVector α) (.other other)).2 :=
      WF_Assign mem ({} : SimpleVector α) other.raw_vector_ other.begin_ other.end_
        ⟨Nat.le_refl _, rfl⟩
    unfold SimpleVector.ctor_copy at h
    split at h
    · exact absurd h (by simp)
    · rename_i hh
      rw [hh] at this
      simp at h
      exact h ▸ this
  | ctor_move other _ ih => exact ih
  | ctor_move_source other rhs _ h ih =>
    simp [SimpleVector.ctor_move, SimpleVector.move_assign, ArrayPtr.swap, ArrayPtr.Delete] at h
    subst h
    exact ⟨Nat.le_refl _, rfl⟩
  | copy_assign_self mem v _ ih => exact ih
  | copy_assign mem v rhs _ _ ih _ => exact WF_Assign mem v _ _ _ ih
  | move_assign_self v _ ih => exact ih
  | move_assign v rhs _ _ _ ih => exact ih
  | move_assign_source v rhs rhs1 _ _ h _ _ =>
    simp [SimpleVector.move_assign, ArrayPtr.swap, ArrayPtr.Delete] at h
    subst h
    exact ⟨Nat.le_refl _, rfl⟩
  | swap_this v other _ _ _ ih => exact ih
  | swap_other v other _ _ ih _ => exact ih
  | subscript_assign v index value _ ih =>
    unfold SimpleVector.subscript_assign
    split
    · exact ih
    · exact ⟨ih.1, by simpa [ArrayPtr.store] using ih.2⟩
  | At v index _ ih =>
    unfold SimpleVector.At
    split <;> exact ih
  | Clear v _ ih => exact ⟨Nat.zero_le _, ih.2⟩
  | Reserve mem v n _ ih => exact WF_Reserve mem v n ih
  | Resize mem v n _ ih => exact WF_Resize mem v n ih
  | PushBack mem v x _ _ ih => exact WF_PushBack mem v x ih
  | PopBack v _ ih => exact WF_PopBack v ih
  | Insert mem v pos x _ ih => exact WF_Insert mem v pos x ih
  | Erase v pos _ ih => exact WF_Erase v pos ih

end SimpleVector

/-! ## Closed forms of the member functions -/

namespace SimpleVector

theorem length_toList {α : Type} [Inhabited α] (v : SimpleVector α) (hv : WF v) :
    (toList v).length = v.size_ := by
  have h1 := hv.1
  have h2 := hv.2
  simp [toList]
  omega

theorem ResizeCapacity_ok {α : Type} [Inhabited α] (mem : Nat → Bool) (v : SimpleVector α)
    (new_capacity : Nat) (hv : WF v) (hn : v.size_ ≤ new_capacity)
    (hm : mem new_capacity = true) :
    ResizeCapacity mem v new_capacity =
      (.ok (), { capacity_ := new_capacity, size_ := v.size_,
                 raw_vector_ := toList v ++ List.replicate (new_capacity - v.size_) default }) := by
  have h1 := hv.1
  have h2 := hv.2
  have hmv := std_move_eq v.raw_vector_ 0 v.size_ (List.replicate new_capacity default) 0
    (Nat.zero_le _) (by omega) (by simp; omega)
  simp only [ResizeCapacity, ArrayPtr.allocate, hm, if_true, begin_, end_, hmv]
  simp [toList]

theorem Insert_spare {α : Type} [Inhabited α] (mem : Nat → Bool) (v : SimpleVector α)
    (pos : Nat) (value : Ref α) (hv : WF v) (hp : pos ≤ v.size_) (hc : v.size_ < v.capacity_) :
    Insert mem v pos value =
      (.ok pos, { capacity_ := v.capacity_, size_ := v.size_ + 1,
                  raw_vector_ := v.raw_vector_.take pos ++
                    value.read (std_move_backward v.raw_vector_ pos v.size_ (v.size_ + 1)) ::
                      (toList v).drop pos ++ v.raw_vector_.drop (v.size_ + 1) }) := by
  have h2 := hv.2
  have hs := std_move_backward_store_eq v.raw_vector_ pos v.size_
    (value.read (std_move_backward v.raw_vector_ pos v.size_ (v.size_ + 1))) hp (by omega)
  simp only [Insert, begin_, end_, ge_iff_le, Nat.zero_le, true_and, hp, not_true_eq_false,
    if_false, gt_iff_lt, hc, if_true, hs]
  rfl

theorem Insert_full {α : Type} [Inhabited α] (mem : Nat → Bool) (v : SimpleVector α)
    (pos : Nat) (value : Ref α) (hv : WF v) (hp : pos ≤ v.size_) (hc : v.size_ = v.capacity_)
    (hm : mem (if v.capacity_ = 0 then 1 else v.size_ * 2) = true) :
    Insert mem v pos value =
      (.ok pos, { capacity_ := if v.capacity_ = 0 then 1 else v.size_ * 2, size_ := v.size_ + 1,
                  raw_vector_ := v.raw_vector_.take pos ++
                    value.read v.raw_vector_ :: (toList v).drop pos ++
                    List.replicate ((if v.capacity_ = 0 then 1 else v.size_ * 2) - (v.size_ + 1))
                      default }) := by
  have h2 := hv.2
  obtain ⟨x, hx⟩ : ∃ x, value.read v.raw_vector_ = x := ⟨_, rfl⟩
  rw [hx]
  have hnc : ¬ v.capacity_ > v.size_ := by omega
  by_cases h0 : v.capacity_ = 0
  · have hs0 : v.size_ = 0 := by omega
    have hp0 : pos = 0 := by omega
    have hr : v.raw_vector_ = [] := List.length_eq_zero.mp (by omega)
    rw [if_pos h0] at hm
    subst hp0
    rw [hr] at hx
    simp [Insert, begin_, end_, h0, hs0, ArrayPtr.allocate, hm, ArrayPtr.store, toList, hr, hx]
  · rw [if_neg h0] at hm
    have hs0 : v.size_ ≠ 0 := by omega
    have hA := std_move_eq v.raw_vector_ 0 pos (List.replicate (v.size_ * 2) default) 0
      (Nat.zero_le _) (by omega) (by simp; omega)
    have hB : ∀ dst : ArrayPtr α, dst.length = v.size_ * 2 →
        std_move v.raw_vector_ pos v.size_ dst (pos + 1) =
          dst.take (pos + 1) ++ (v.raw_vector_.take v.size_).drop pos ++
            dst.drop (pos + 1 + (v.size_ - pos)) := fun dst hd =>
      std_move_eq v.raw_vector_ pos v.size_ dst (pos + 1) hp (by omega) (by omega)
    have hl1 : (List.take pos v.raw_vector_).length = pos := by simp; omega
    have hX : (std_move v.raw_vector_ 0 pos (List.replicate (v.size_ * 2) default) 0).store pos
        x = v.raw_vector_.take pos ++ x :: List.replicate (v.size_ * 2 - pos - 1)
          default := by
      rw [hA]
      have := set_append_replicate (v.raw_vector_.take pos) (v.size_ * 2 - pos) default x
        (by omega)
      rw [hl1] at this
      simpa [ArrayPtr.store] using this
    have hT : List.take (pos + 1) (v.raw_vector_.take pos ++ x ::
        List.replicate (v.size_ * 2 - pos - 1) default) = v.raw_vector_.take pos ++ [x] := by
      rw [List.take_append_eq_append_take, hl1]
      simp [List.take_take]
    have hD : List.drop (pos + 1 + (v.size_ - pos)) (v.raw_vector_.take pos ++ x ::
        List.replicate (v.size_ * 2 - pos - 1) default) =
          List.replicate (v.size_ * 2 - (v.size_ + 1)) default := by
      have e : pos + 1 + (v.size_ - pos) =
          (List.take pos v.raw_vector_).length + ((v.size_ - pos) + 1) := by omega
      rw [e, List.drop_append]
      simp only [List.drop_succ_cons, List.drop_replicate]
      congr 1
      omega
    simp only [Insert, begin_, end_, ge_iff_le, Nat.zero_le, true_and, hp, not_true_eq_false,
      if_false, hnc, beq_iff_eq, h0, ArrayPtr.allocate, hm, if_true, Nat.sub_zero, hx]
    rw [hX, hB _ (by simp; omega), hT, hD]
    simp [toList]


theorem take_succ_append {α : Type} (A B T : List α) (x : α) (n : Nat)
    (h : A.length + B.length = n) : List.take (n + 1) (A ++ x :: B ++ T) = A ++ x :: B := by
  have : (A ++ x :: B).length = n + 1 := by simp; omega
  exact List.take_left' this

theorem Insert_spec_aux {α : Type} [Inhabited α] (mem : Nat → Bool) (v : SimpleVector α)
    (pos : Nat) (value : Ref α) (hv : WF v) (hp : pos ≤ v.size_)
    (hm : v.size_ = v.capacity_ → mem (if v.capacity_ = 0 then 1 else v.size_ * 2) = true) :
    (Insert mem v pos value).1 = .ok pos ∧
    (∃ y, toList (Insert mem v pos value).2 = (toList v).take pos ++ y :: (toList v).drop pos ∧
      (∀ x, value = .value x → y = x) ∧
      (¬ v.size_ < v.capacity_ → y = value.read v.raw_vector_) ∧
      (v.size_ < v.capacity_ →
        y = value.read (std_move_backward v.raw_vector_ pos v.size_ (v.size_ + 1)))) ∧
    (Insert mem v pos value).2.size_ = v.size_ + 1 ∧
    (Insert mem v pos value).2.capacity_ =
      if v.size_ < v.capacity_ then v.capacity_
      else if v.capacity_ = 0 then 1 else v.size_ * 2 := by
  have h1 := hv.1
  have h2 := hv.2
  have hlen := length_toList v hv
  have hA : v.raw_vector_.take pos = (toList v).take pos := by
    simp [toList, List.take_take, Nat.min_eq_left hp]
  have hl : ((toList v).take pos).length + ((toList v).drop pos).length = v.size_ := by
    simp [hlen]; omega
  by_cases hc : v.size_ < v.capacity_
  · rw [Insert_spare mem v pos value hv hp hc, hA]
    refine ⟨rfl, ⟨_, take_succ_append _ _ _ _ _ hl, ?_, fun h => absurd hc h, fun _ => rfl⟩,
      rfl, by simp [hc]⟩
    intro x hx
    subst hx
    rfl
  · have hc2 : v.size_ = v.capacity_ := by omega
    rw [Insert_full mem v pos value hv hp hc2 (hm hc2), hA]
    refine ⟨rfl, ⟨_, take_succ_append _ _ _ _ _ hl, ?_, fun _ => rfl, fun h => absurd h hc⟩,
      rfl, by simp [hc]⟩
    intro x hx
    subst hx
    rfl

theorem Erase_ok {α : Type} [Inhabited α] (v : SimpleVector α) (pos : Nat) (hv : WF v)
    (hp : pos < v.size_) :
    Erase v pos =
      (.ok pos, { capacity_ := v.capacity_, size_ := v.size_ - 1,
                  raw_vector_ := v.raw_vector_.take pos ++ (toList v).drop (pos + 1) ++
                    v.raw_vector_.drop (v.size_ - 1) }) := by
  have h1 := hv.1
  have h2 := hv.2
  simp only [Erase, begin_, end_, ge_iff_le, Nat.zero_le, true_and, hp, not_true_eq_false,
    if_false, Nat.sub_zero]
  by_cases hl : v.size_ > pos + 1
  · rw [if_pos hl, Erase_loop_eq v.raw_vector_ pos v.size_ hp (by omega)]
    rfl
  · rw [if_neg hl]
    have e : v.size_ - 1 = pos := by omega
    have e2 : (toList v).drop (pos + 1) = [] := by
      apply List.drop_eq_nil_of_le
      rw [length_toList v hv]
      omega
    rw [e2, e, List.append_nil, List.take_append_drop]

theorem Erase_spec_aux {α : Type} [Inhabited α] (v : SimpleVector α) (pos : Nat) (hv : WF v)
    (hp : pos < v.size_) :
    (Erase v pos).1 = .ok pos ∧
    toList (Erase v pos).2 = (toList v).take pos ++ (toList v).drop (pos + 1) ∧
    (Erase v pos).2.size_ = v.size_ - 1 ∧
    (Erase v pos).2.capacity_ = v.capacity_ := by
  have hlen := length_toList v hv
  have hA : v.raw_vector_.take pos = (toList v).take pos := by
    simp [toList, List.take_take, Nat.min_eq_left (Nat.le_of_lt hp)]
  rw [Erase_ok v pos hv hp, hA]
  refine ⟨rfl, ?_, rfl, rfl⟩
  apply List.take_left'
  simp [hlen]
  omega

theorem index_of_toList {α : Type} [Inhabited α] (v : SimpleVector α) (i : Nat) (x : α)
    (h : (toList v)[i]? = some x) : v.raw_vector_.index i = x := by
  unfold toList at h
  rw [List.getElem?_take] at h
  split at h
  · simp [ArrayPtr.index, List.getD_eq_getElem?_getD, h]
  · exact absurd h (by simp)

theorem At_of_toList {α : Type} [Inhabited α] (v : SimpleVector α) (i : Nat) (x : α)
    (h : (toList v)[i]? = some x) : At v i = (.ok x, v) := by
  have hi := index_of_toList v i x h
  unfold toList at h
  rw [List.getElem?_take] at h
  split at h
  · rename_i hlt
    simp [At, hi, hlt]
  · exact absurd h (by simp)


theorem take_succ_set {α : Type} (l : List α) (n : Nat) (x : α) (h : n < l.length) :
    List.take (n + 1) (l.set n x) = List.take n l ++ [x] := by
  have e : List.take n (l.set n x) = List.take n l := by
    apply List.ext_getElem?
    intro k
    rw [List.getElem?_take, List.getElem?_take]
    split
    · rw [List.getElem?_set_ne (by omega)]
    · rfl
  rw [List.take_succ, e]
  simp [List.getElem?_set, h]

theorem PushBack_full {α : Type} [Inhabited α] (mem : Nat → Bool) (v : SimpleVector α)
    (x : α) (hv : WF v) (hc : v.size_ = v.capacity_)
    (hm : mem (if v.size_ = 0 then 1 else v.size_ * 2) = true) :
    PushBack mem v (.value x) =
      (.ok (), { capacity_ := if v.size_ = 0 then 1 else v.size_ * 2, size_ := v.size_ + 1,
                 raw_vector_ := (toList v ++ List.replicate
                   ((if v.size_ = 0 then 1 else v.size_ * 2) - v.size_) default).set
                     v.size_ x }) := by
  have hn : v.size_ ≤ (if v.size_ = 0 then 1 else v.size_ * 2) := by
    split <;> omega
  have hr := ResizeCapacity_ok mem v _ hv hn hm
  simp only [PushBack, hc, beq_self_eq_true, if_true, beq_iff_eq]
  simp only [← hc, hr, ArrayPtr.store]

theorem PushBack_full_element {α : Type} [Inhabited α] (mem : Nat → Bool) (v : SimpleVector α)
    (index : Nat) (hv : WF v) (hc : v.size_ = v.capacity_)
    (hm : mem (if v.size_ = 0 then 1 else v.size_ * 2) = true) :
    PushBack mem v (.element index) =
      (.error .dangling_reference,
       { capacity_ := if v.size_ = 0 then 1 else v.size_ * 2, size_ := v.size_,
         raw_vector_ := toList v ++ List.replicate
           ((if v.size_ = 0 then 1 else v.size_ * 2) - v.size_) default }) := by
  have hn : v.size_ ≤ (if v.size_ = 0 then 1 else v.size_ * 2) := by
    split <;> omega
  have hr := ResizeCapacity_ok mem v _ hv hn hm
  simp only [PushBack, hc, beq_self_eq_true, if_true, beq_iff_eq]
  simp only [← hc, hr]

theorem PushBack_spare {α : Type} [Inhabited α] (mem : Nat → Bool) (v : SimpleVector α)
    (value : Ref α) (hc : v.capacity_ ≠ v.size_) :
    PushBack mem v value =
      (.ok (), { capacity_ := v.capacity_, size_ := v.size_ + 1,
                 raw_vector_ := v.raw_vector_.set v.size_ (value.read v.raw_vector_) }) := by
  have hb : (v.capacity_ == v.size_) = false := by simpa using hc
  simp only [PushBack, hb, ArrayPtr.store]
  rfl

theorem PushBack_spec_aux {α : Type} [Inhabited α] (mem : Nat → Bool) (v : SimpleVector α)
    (x : α) (hv : WF v)
    (hm : v.size_ = v.capacity_ → mem (if v.size_ = 0 then 1 else v.size_ * 2) = true) :
    (PushBack mem v (.value x)).1 = .ok () ∧
    toList (PushBack mem v (.value x)).2 = toList v ++ [x] ∧
    (PushBack mem v (.value x)).2.size_ = v.size_ + 1 ∧
    (PushBack mem v (.value x)).2.capacity_ =
      if v.size_ < v.capacity_ then v.capacity_
      else if v.size_ = 0 then 1 else v.size_ * 2 := by
  have h1 := hv.1
  have h2 := hv.2
  have hlen := length_toList v hv
  by_cases hc : v.size_ = v.capacity_
  · have hlt : ¬ v.size_ < v.capacity_ := by omega
    rw [PushBack_full mem v x hv hc (hm hc)]
    refine ⟨rfl, ?_, rfl, by simp only [if_neg hlt]⟩
    simp only [toList] at hlen ⊢
    rw [take_succ_set _ _ _ (by
      simp only [List.length_append, List.length_replicate, hlen]
      split <;> omega)]
    congr 1
    exact List.take_left' hlen
  · have hlt : v.size_ < v.capacity_ := by omega
    rw [PushBack_spare mem v (.value x) (by omega)]
    refine ⟨rfl, ?_, rfl, by simp only [if_pos hlt]⟩
    simp only [toList]
    exact take_succ_set _ _ _ (by omega)

theorem PushBack_spare_spec {α : Type} [Inhabited α] (mem : Nat → Bool) (v : SimpleVector α)
    (value : Ref α) (hv : WF v) (hc : v.size_ < v.capacity_) :
    (PushBack mem v value).1 = .ok () ∧
    toList (PushBack mem v value).2 = toList v ++ [value.read v.raw_vector_] ∧
    (PushBack mem v value).2.size_ = v.size_ + 1 ∧
    (PushBack mem v value).2.capacity_ = v.capacity_ := by
  have h2 := hv.2
  rw [PushBack_spare mem v value (by omega)]
  refine ⟨rfl, ?_, rfl, rfl⟩
  simp only [toList]
  exact take_succ_set _ _ _ (by omega)

theorem Resize_shrink {α : Type} [Inhabited α] (mem : Nat → Bool) (v : SimpleVector α)
    (new_size : Nat) (hn : new_size ≤ v.size_) :
    Resize mem v new_size = (.ok (), { v with size_ := new_size }) := by
  simp only [Resize, hn, if_true]

theorem Resize_fill {α : Type} [Inhabited α] (mem : Nat → Bool) (v : SimpleVector α)
    (new_size : Nat) (hv : WF v) (hn : v.size_ < new_size) (hc : new_size ≤ v.capacity_) :
    Resize mem v new_size =
      (.ok (), { capacity_ := v.capacity_, size_ := new_size,
                 raw_vector_ := toList v ++ List.replicate (new_size - v.size_) default ++
                   v.raw_vector_.drop new_size }) := by
  have h2 := hv.2
  have hn2 : ¬ new_size ≤ v.size_ := by omega
  simp only [Resize, hn2, if_false, hc, if_true,
    std_fill_eq v.raw_vector_ v.size_ new_size default (by omega) (by omega)]
  rfl

theorem Resize_realloc {α : Type} [Inhabited α] (mem : Nat → Bool) (v : SimpleVector α)
    (new_size : Nat) (hv : WF v) (hc : v.capacity_ < new_size)
    (hm : mem (max new_size (2 * v.capacity_)) = true) :
    Resize mem v new_size =
      (.ok (), { capacity_ := max new_size (2 * v.capacity_), size_ := new_size,
                 raw_vector_ := toList v ++
                   List.replicate (max new_size (2 * v.capacity_) - v.size_) default }) := by
  have h1 := hv.1
  have hn2 : ¬ new_size ≤ v.size_ := by omega
  have hc2 : ¬ new_size ≤ v.capacity_ := by omega
  simp only [Resize, hn2, if_false, hc2,
    ResizeCapacity_ok mem v (max new_size (2 * v.capacity_)) hv (by omega) hm]

theorem Resize_grow_spec_aux {α : Type} [Inhabited α] (mem : Nat → Bool) (v : SimpleVector α)
    (new_size : Nat) (hv : WF v) (hn : v.size_ < new_size)
    (hm : v.capacity_ < new_size → mem (max new_size (2 * v.capacity_)) = true) :
    (Resize mem v new_size).1 = .ok () ∧
    (Resize mem v new_size).2.size_ = new_size ∧
    toList (Resize mem v new_size).2 =
      toList v ++ List.replicate (new_size - v.size_) default ∧
    (Resize mem v new_size).2.capacity_ =
      if new_size ≤ v.capacity_ then v.capacity_ else max new_size (2 * v.capacity_) := by
  have hlen := length_toList v hv
  by_cases hc : new_size ≤ v.capacity_
  · rw [Resize_fill mem v new_size hv hn hc]
    refine ⟨rfl, rfl, ?_, by simp only [if_pos hc]⟩
    simp only [toList] at hlen ⊢
    apply List.take_left'
    simp only [List.length_append, List.length_replicate, hlen]
    omega
  · rw [Resize_realloc mem v new_size hv (by omega) (hm (by omega))]
    refine ⟨rfl, rfl, ?_, by simp only [if_neg hc]⟩
    simp only [toList] at hlen ⊢
    have e : max new_size (2 * v.capacity_) - v.size_ =
        (new_size - v.size_) + (max new_size (2 * v.capacity_) - new_size) := by omega
    rw [e, List.replicate_add, ← List.append_assoc]
    apply List.take_left'
    simp only [List.length_append, List.length_replicate, hlen]
    omega

theorem Reserve_grow {α : Type} [Inhabited α] (mem : Nat → Bool) (v : SimpleVector α)
    (new_capacity : Nat) (hv : WF v) (hc : v.capacity_ < new_capacity)
    (hm : mem new_capacity = true) :
    Reserve mem v new_capacity =
      (.ok (), { capacity_ := new_capacity, size_ := v.size_,
                 raw_vector_ := toList v ++ List.replicate (new_capacity - v.size_) default }) := by
  have h1 := hv.1
  simp only [Reserve, gt_iff_lt, hc, if_true,
    ResizeCapacity_ok mem v new_capacity hv (by omega) hm]

theorem Reserve_noop {α : Type} [Inhabited α] (mem : Nat → Bool) (v : SimpleVector α)
    (new_capacity : Nat) (hc : new_capacity ≤ v.capacity_) :
    Reserve mem v new_capacity = (.ok (), v) := by
  have : ¬ new_capacity > v.capacity_ := by omega
  simp only [Reserve, this, if_false]


theorem PushBackAll_spec_aux {α : Type} [Inhabited α] (mem : Nat → Bool)
    (hm : ∀ j, mem (2 ^ j) = true) (values : List α) (v : SimpleVector α) (hv : WF v)
    (hcap : (v.size_ = 0 ∧ v.capacity_ = 0) ∨
      (0 < v.size_ ∧ ∃ j, v.capacity_ = 2 ^ j ∧ 2 ^ j < 2 * v.size_)) :
    (PushBackAll mem v values).1 = .ok () ∧
    WF (PushBackAll mem v values).2 ∧
    toList (PushBackAll mem v values).2 = toList v ++ values ∧
    (PushBackAll mem v values).2.size_ = v.size_ + values.length ∧
    (((PushBackAll mem v values).2.size_ = 0 ∧ (PushBackAll mem v values).2.capacity_ = 0) ∨
      (0 < (PushBackAll mem v values).2.size_ ∧
        ∃ j, (PushBackAll mem v values).2.capacity_ = 2 ^ j ∧
          2 ^ j < 2 * (PushBackAll mem v values).2.size_)) := by
  induction values generalizing v with
  | nil => exact ⟨rfl, hv, by simp [PushBackAll], rfl, hcap⟩
  | cons x xs ih =>
    have h1 := hv.1
    have hmem : v.size_ = v.capacity_ → mem (if v.size_ = 0 then 1 else v.size_ * 2) = true := by
      intro hc
      rcases hcap with ⟨h0, _⟩ | ⟨hpos, j, hj, _⟩
      · rw [if_pos h0]
        exact hm 0
      · rw [if_neg (by omega), hc, hj, ← Nat.pow_succ]
        exact hm (j + 1)
    have hp := PushBack_spec_aux mem v x hv hmem
    have hw := WF_PushBack mem v (.value x) hv
    have hcap1 : ((PushBack mem v (.value x)).2.size_ = 0 ∧
          (PushBack mem v (.value x)).2.capacity_ = 0) ∨
        (0 < (PushBack mem v (.value x)).2.size_ ∧
          ∃ j, (PushBack mem v (.value x)).2.capacity_ = 2 ^ j ∧
            2 ^ j < 2 * (PushBack mem v (.value x)).2.size_) := by
      right
      rw [hp.2.2.1, hp.2.2.2]
      refine ⟨by omega, ?_⟩
      rcases hcap with ⟨h0, hc0⟩ | ⟨hpos, j, hj, hlt⟩
      · refine ⟨0, ?_, by simp [h0]⟩
        simp [h0, hc0]
      · by_cases hc : v.size_ < v.capacity_
        · exact ⟨j, by rw [if_pos hc, hj], by omega⟩
        · refine ⟨j + 1, ?_, ?_⟩
          · rw [if_neg hc, if_neg (by omega), Nat.pow_succ]
            omega
          · rw [Nat.pow_succ]
            omega
    have hi := ih (PushBack mem v (.value x)).2 hw hcap1
    have hstep : PushBackAll mem v (x :: xs) =
        PushBackAll mem (PushBack mem v (.value x)).2 xs := by
      have e : PushBack mem v (.value x) = (.ok (), (PushBack mem v (.value x)).2) := by
        rw [← hp.1]
      rw [PushBackAll, e]
    rw [hstep]
    refine ⟨hi.1, hi.2.1, ?_, ?_, hi.2.2.2.2⟩
    · rw [hi.2.2.1, hp.2.1, List.append_assoc]
      rfl
    · rw [hi.2.2.2.1, hp.2.2.1, List.length_cons]
      omega

theorem example_1_2_3_built : ctor_init mem_unlimited [1, 2, 3] = .ok example_1_2_3 :=
  rfl

theorem example_1_9_2_3_built :
    Insert mem_unlimited example_1_2_3 1 (.value 9) = (.ok 1, example_1_9_2_3) :=
  rfl

theorem example_5_6_built :
    PopBack (PushBackAll mem_unlimited ctor_default [5, 6, 7]).2 = (.ok (), example_5_6) :=
  rfl

theorem ctor_size_value_ok {α : Type} [Inhabited α] (mem : Nat → Bool) (size : Nat) (value : α)
    (hm : mem size = true) :
    ctor_size_value mem size value =
      .ok { capacity_ := size, size_ := size, raw_vector_ := List.replicate size value } := by
  have hf := std_fill_eq (List.replicate size (default : α)) 0 size value (Nat.zero_le _)
    (by simp)
  simp only [ctor_size_value, ArrayPtr.allocate, hm, if_true, begin_, end_, hf]
  simp

theorem getElem?_toList {α : Type} [Inhabited α] (v : SimpleVector α) (hv : WF v) (i : Nat)
    (hi : i < v.size_) : (toList v)[i]? = some (v.raw_vector_.index i) := by
  have h1 := hv.1
  have h2 := hv.2
  rw [toList, List.getElem?_take, if_pos hi, ArrayPtr.some_index _ _ (by omega)]

theorem std_equal_loop_iff {α : Type} [Inhabited α] [BEq α] (a b : ArrayPtr α)
    (n first1 first2 : Nat) :
    std_equal_loop a b n first1 first2 = true ↔
      ∀ k, k < n → (a.index (first1 + k) == b.index (first2 + k)) = true := by
  induction n generalizing first1 first2 with
  | zero => exact ⟨fun _ k hk => absurd hk (Nat.not_lt_zero k), fun _ => rfl⟩
  | succ n ih =>
    rw [std_equal_loop]
    by_cases h0 : (a.index first1 == b.index first2) = true
    · simp only [h0, Bool.not_true, Bool.false_eq_true, if_false]
      rw [ih]
      constructor
      · intro h k hk
        cases k with
        | zero => exact h0
        | succ k =>
          have := h k (by omega)
          rwa [Nat.add_right_comm first1 1 k, Nat.add_right_comm first2 1 k] at this
      · intro h k hk
        have := h (k + 1) (by omega)
        rwa [Nat.add_right_comm first1 1 k, Nat.add_right_comm first2 1 k]
    · have h1 : (a.index first1 == b.index first2) = false := by
        simpa using h0
      simp only [h1, Bool.not_false, if_true, Bool.false_eq_true, false_iff]
      intro h
      exact h0 (h 0 (by omega))

theorem operator_eq_iff {α : Type} [Inhabited α] [BEq α] (a b : SimpleVector α) (ha : WF a)
    (hb : WF b) :
    operator_eq a (.other b) = true ↔
      (toList a).length = (toList b).length ∧
        ∀ (i : Nat) (x y : α), (toList a)[i]? = some x → (toList b)[i]? = some y →
          (x == y) = true := by
  rw [length_toList a ha, length_toList b hb]
  simp only [operator_eq, GetSize, begin_, end_, std_equal, Bool.and_eq_true, beq_iff_eq,
    Nat.sub_zero, std_equal_loop_iff, Nat.zero_add]
  constructor
  · rintro ⟨hs, h⟩
    refine ⟨hs, fun i x y hx hy => ?_⟩
    have hi : i < a.size_ := by
      by_contra hn
      rw [List.getElem?_eq_none (by rw [length_toList a ha]; omega)] at hx
      exact absurd hx (by simp)
    rw [← index_of_toList a i x hx, ← index_of_toList b i y hy]
    exact h i hi
  · rintro ⟨hs, h⟩
    refine ⟨hs, fun k hk => ?_⟩
    exact h k _ _ (getElem?_toList a ha k hk) (getElem?_toList b hb k (by omega))

theorem operator_eq_iff_toList_eq {α : Type} [Inhabited α] [BEq α] [LawfulBEq α]
    (a b : SimpleVector α) (ha : WF a) (hb : WF b) :
    operator_eq a (.other b) = true ↔ toList a = toList b := by
  rw [operator_eq_iff a b ha hb]
  constructor
  · rintro ⟨hl, h⟩
    apply List.ext_getElem hl
    intro i h1 h2
    exact eq_of_beq (h i _ _ (List.getElem?_eq_getElem h1) (List.getElem?_eq_getElem h2))
  · intro e
    rw [e]
    refine ⟨rfl, fun i x y hx hy => ?_⟩
    rw [hx] at hy
    cases hy
    exact beq_self_eq_true x

theorem take_succ_drop {α : Type} [Inhabited α] (l : ArrayPtr α) (f n : Nat)
    (h : f < l.length) :
    List.take (n + 1) (List.drop f l) = l.index f :: List.take n (List.drop (f + 1) l) := by
  have e : l.index f = l[f] := by
    simp [ArrayPtr.index, List.getD_eq_getElem?_getD, List.getElem?_eq_getElem h]
  rw [List.drop_eq_getElem_cons h, List.take_succ_cons, e]

theorem std_lexicographical_compare_loop_iff {α : Type} [Inhabited α] [LinearOrder α]
    (a b : ArrayPtr α) (n1 n2 first1 first2 : Nat) (h1 : first1 + n1 ≤ a.length)
    (h2 : first2 + n2 ≤ b.length) :
    std_lexicographical_compare_loop a b n1 n2 first1 first2 = true ↔
      List.Lex (fun x y : α => x < y) (List.take n1 (List.drop first1 a))
        (List.take n2 (List.drop first2 b)) := by
  induction n1 generalizing n2 first1 first2 with
  | zero =>
    cases n2 with
    | zero =>
      simp only [std_lexicographical_compare_loop, List.take_zero]
      constructor
      · intro h
        exact absurd h (by decide)
      · intro h
        cases h
    | succ m =>
      rw [take_succ_drop b first2 m (by omega)]
      simp only [std_lexicographical_compare_loop, List.take_zero]
      exact ⟨fun _ => List.Lex.nil, fun _ => by simp⟩
  | succ n ih =>
    cases n2 with
    | zero =>
      rw [take_succ_drop a first1 n (by omega)]
      simp only [std_lexicographical_compare_loop, List.take_zero]
      constructor
      · intro h
        exact absurd h (by decide)
      · intro h
        cases h
    | succ m =>
      rw [take_succ_drop a first1 n (by omega), take_succ_drop b first2 m (by omega),
        std_lexicographical_compare_loop]
      by_cases hlt : a.index first1 < b.index first2
      · rw [if_pos hlt]
        exact ⟨fun _ => List.Lex.rel hlt, fun _ => rfl⟩
      · rw [if_neg hlt]
        by_cases hgt : b.index first2 < a.index first1
        · rw [if_pos hgt]
          constructor
          · intro h
            exact absurd h (by decide)
          · intro h
            generalize a.index first1 = x at h hlt hgt
            generalize b.index first2 = y at h hlt hgt
            cases h with
            | rel h => exact absurd h hlt
            | cons h => exact absurd hgt (lt_irrefl _)
        · rw [if_neg hgt, ih m (first1 + 1) (first2 + 1) (by omega) (by omega)]
          have e : a.index first1 = b.index first2 :=
            le_antisymm (not_lt.mp hgt) (not_lt.mp hlt)
          rw [e]
          exact List.Lex.cons_iff.symm

theorem operator_lt_iff {α : Type} [Inhabited α] [LinearOrder α] (a b : SimpleVector α)
    (ha : WF a) (hb : WF b) : operator_lt a b = true ↔ toList a < toList b := by
  have h1 := ha.1
  have h2 := ha.2
  have h3 := hb.1
  have h4 := hb.2
  have := std_lexicographical_compare_loop_iff a.raw_vector_ b.raw_vector_ a.size_ b.size_ 0 0
    (by omega) (by omega)
  simpa only [operator_lt, std_lexicographical_compare, begin_, end_, Nat.sub_zero,
    List.drop_zero] using this

theorem LexPrecedes_of_Lex {α : Type} [LT α] (s t : List α)
    (h : List.Lex (fun x y : α => x < y) s t) : LexPrecedes s t := by
  induction h with
  | nil => exact ⟨0, rfl, Or.inl ⟨rfl, Nat.succ_pos _⟩⟩
  | cons _ ih =>
    obtain ⟨k, hk, hc⟩ := ih
    refine ⟨k + 1, by simp [hk], ?_⟩
    rcases hc with ⟨h1, h2⟩ | ⟨x, y, hx, hy, hxy⟩
    · exact Or.inl ⟨by simp [h1], by simpa using h2⟩
    · exact Or.inr ⟨x, y, by simpa using hx, by simpa using hy, hxy⟩
  | rel hr => exact ⟨0, rfl, Or.inr ⟨_, _, List.getElem?_cons_zero, List.getElem?_cons_zero, hr⟩⟩

theorem Lex_of_LexPrecedes {α : Type} [LT α] (s t : List α) (h : LexPrecedes s t) :
    List.Lex (fun x y : α => x < y) s t := by
  obtain ⟨k, hk, hc⟩ := h
  induction k generalizing s t with
  | zero =>
    rcases hc with ⟨h1, h2⟩ | ⟨x, y, hx, hy, hxy⟩
    · cases s with
      | nil =>
        cases t with
        | nil => exact absurd h2 (Nat.lt_irrefl 0)
        | cons b t => exact List.Lex.nil
      | cons a s => exact absurd h1 (by simp)
    · cases s with
      | nil => exact absurd hx (by simp)
      | cons a s =>
        cases t with
        | nil => exact absurd hy (by simp)
        | cons b t =>
          simp only [List.getElem?_cons_zero, Option.some.injEq] at hx hy
          subst hx hy
          exact List.Lex.rel hxy
  | succ k ih =>
    cases s with
    | nil =>
      rcases hc with ⟨h1, _⟩ | ⟨x, y, hx, _, _⟩
      · exact absurd h1 (by simp)
      · exact absurd hx (by simp)
    | cons a s =>
      cases t with
      | nil =>
        rcases hc with ⟨_, h2⟩ | ⟨x, y, _, hy, _⟩
        · exact absurd h2 (by simp)
        · exact absurd hy (by simp)
      | cons b t =>
        simp only [List.take_succ_cons, List.cons.injEq] at hk
        obtain ⟨hab, hk⟩ := hk
        subst hab
        apply List.Lex.cons
        apply ih s t hk
        rcases hc with ⟨h1, h2⟩ | ⟨x, y, hx, hy, hxy⟩
        · exact Or.inl ⟨by simpa using h1, by simpa using h2⟩
        · exact Or.inr ⟨x, y, by simpa using hx, by simpa using hy, hxy⟩


theorem operator_lt_eq_false_iff {α : Type} [Inhabited α] [LinearOrder α] (a b : SimpleVector α)
    (ha : WF a) (hb : WF b) : operator_lt a b = false ↔ ¬ toList a < toList b := by
  rw [← operator_lt_iff a b ha hb, Bool.not_eq_true]

end SimpleVector

/-! ## Properties of the operations -/

namespace SimpleVector

/-- C1: in every state an object can reach from a constructor by public operations (`PushBack`,
`PopBack`, `Insert`, `Erase`, `Resize`, `Reserve`, `Clear`, copy and move assignment, `swap`,
element writes), with arguments that may refer to elements of the vector itself, the size does
not exceed the capacity. -/
theorem C1_size_le_capacity {α : Type} [Inhabited α] (v : SimpleVector α) (h : Reachable v) :
    GetSize v ≤ GetCapacity v :=
  (Reachable.wf h).1

/-- C1, at a concrete state: the vector obtained from `{1, 2, 3}` by `PushBack(4)` and
`PopBack()`. -/
theorem C1_size_le_capacity_witness :
    GetSize (PopBack (PushBack mem_unlimited example_1_2_3 (.value 4)).2).2 ≤
      GetCapacity (PopBack (PushBack mem_unlimited example_1_2_3 (.value 4)).2).2 :=
  C1_size_le_capacity _
    (Reachable.PopBack _ (Reachable.PushBack _ _ (.value 4)
      (Reachable.ctor_init mem_unlimited [1, 2, 3] _ rfl) (fun h => nomatch h)))

/-- For an argument that is a value held outside the vector: on a vector with logical sequence
`s`, size `n` and capacity `c`, `PushBack(x)` returns and leaves the logical sequence `s`
followed by `x`, the size `n + 1`, and the capacity `c` when `n < c` and `max(1, 2 * c)` when
`n = c`; the allocation that the growth needs is assumed to succeed. -/
theorem PushBack_value {α : Type} [Inhabited α] (mem : Nat → Bool) (v : SimpleVector α) (x : α)
    (hv : WF v) (hm : GetSize v = GetCapacity v → mem (max 1 (2 * GetCapacity v)) = true) :
    (PushBack mem v (.value x)).1 = .ok () ∧
    toList (PushBack mem v (.value x)).2 = toList v ++ [x] ∧
    GetSize (PushBack mem v (.value x)).2 = GetSize v + 1 ∧
    (GetSize v < GetCapacity v → GetCapacity (PushBack mem v (.value x)).2 = GetCapacity v) ∧
    (GetSize v = GetCapacity v →
      GetCapacity (PushBack mem v (.value x)).2 = max 1 (2 * GetCapacity v)) := by
  have h := PushBack_spec_aux mem v x hv (by
    intro hc
    have := hm hc
    simp only [GetCapacity] at this
    rw [← hc] at this
    by_cases h0 : v.size_ = 0
    · simpa [h0] using this
    · have e : max 1 (2 * v.size_) = v.size_ * 2 := by omega
      simpa [h0, e] using this)
  refine ⟨h.1, h.2.1, h.2.2.1, ?_, ?_⟩
  · intro hlt
    simp only [GetSize, GetCapacity] at hlt ⊢
    rw [h.2.2.2, if_pos hlt]
  · intro heq
    simp only [GetSize, GetCapacity] at heq ⊢
    rw [h.2.2.2, if_neg (by omega)]
    by_cases h0 : v.size_ = 0
    · simp [h0, ← heq]
    · rw [if_neg h0]; omega

/-- C2, where the code departs from it: on the full vector `{1, 2, 3}` the call
`v.PushBack(v[2])` does not leave `{1, 2, 3, 3}`.  `ResizeCapacity(6)` replaces and releases the
old buffer, and the argument, a reference into that buffer, is read only afterwards, through a
reference that dangles.  `PushBack` of the same value held outside the vector, and
`Insert(end(), v[2])`, which reads its argument before the buffer is replaced, both leave
`{1, 2, 3, 3}`. -/
theorem C2_PushBack_own_element :
    GetSize example_1_2_3 = GetCapacity example_1_2_3 ∧
    (At example_1_2_3 2).1 = .ok 3 ∧
    PushBack mem_unlimited example_1_2_3 (.element 2) =
      (.error .dangling_reference,
       { capacity_ := 6, size_ := 3, raw_vector_ := [1, 2, 3, 0, 0, 0] }) ∧
    toList (PushBack mem_unlimited example_1_2_3 (.value 3)).2 = [1, 2, 3, 3] ∧
    toList (Insert mem_unlimited example_1_2_3 3 (.element 2)).2 = [1, 2, 3, 3] :=
  ⟨rfl, rfl, rfl, rfl, rfl⟩

/-- For an argument that is a value held outside the vector, or a reference to an own element
when the vector is full: for a position `p` with `0 <= p <= size`, `Insert(p, x)` returns
position `p`; afterwards the logical sequence is the first `p` elements of the old one, then the
value of the argument before the call, then the remaining elements in their order, the size has
grown by exactly one, and checked access at `p` yields that value.  The allocation of the full
case is assumed to succeed. -/
theorem Insert_value {α : Type} [Inhabited α] (mem : Nat → Bool) (v : SimpleVector α) (p : Nat)
    (value : Ref α) (hv : WF v) (hp : begin_ v ≤ p ∧ p ≤ end_ v)
    (hm : GetSize v = GetCapacity v →
      mem (if GetCapacity v = 0 then 1 else 2 * GetSize v) = true)
    (hr : (∃ x, value = .value x) ∨ GetSize v = GetCapacity v) :
    (Insert mem v p value).1 = .ok p ∧
    toList (Insert mem v p value).2 =
      (toList v).take p ++ value.read v.raw_vector_ :: (toList v).drop p ∧
    GetSize (Insert mem v p value).2 = GetSize v + 1 ∧
    (At (Insert mem v p value).2 p).1 = .ok (value.read v.raw_vector_) := by
  have hp2 : p ≤ v.size_ := hp.2
  have h := Insert_spec_aux mem v p value hv hp2 (by
    intro hc
    have := hm hc
    simpa only [GetSize, GetCapacity, Nat.mul_comm 2] using this)
  obtain ⟨y, hy, hy1, hy2, _⟩ := h.2.1
  have hyv : y = value.read v.raw_vector_ := by
    rcases hr with ⟨x, hx⟩ | hfull
    · rw [hy1 x hx, hx]
      rfl
    · simp only [GetSize, GetCapacity] at hfull
      exact hy2 (by omega)
  subst hyv
  refine ⟨h.1, hy, h.2.2.1, ?_⟩
  have hl : ((toList v).take p).length = p := by
    rw [List.length_take, length_toList v hv]
    omega
  have hx : (toList (Insert mem v p value).2)[p]? = some (value.read v.raw_vector_) := by
    rw [hy, List.getElem?_append_right (by omega), hl, Nat.sub_self,
      List.getElem?_cons_zero]
  rw [At_of_toList _ p _ hx]

/-- C3, where the code departs from it: `{5, 6}` has capacity 4 and `v[1]` is 6; the call
`v.Insert(v.begin(), v[1])` returns position 0 but leaves `{5, 5, 6}`, not `{6, 5, 6}`, and
position 0 holds 5.  On this path `std::move_backward` shifts the elements first and
`*it = std::move(value)` reads the argument afterwards, when slot 1 already holds the 5 that was
shifted into it.  The same call with the value 6 held outside the vector leaves `{6, 5, 6}`;
and on the reallocating path, which reads the argument from the old buffer, the call
`v.Insert(v.begin(), v[2])` on the full vector `{1, 2, 3}` leaves `{3, 1, 2, 3}`. -/
theorem C3_Insert_own_element :
    WF example_5_6 ∧ GetSize example_5_6 < GetCapacity example_5_6 ∧
    (At example_5_6 1).1 = .ok 6 ∧
    Insert mem_unlimited example_5_6 0 (.element 1) =
      (.ok 0, { capacity_ := 4, size_ := 3, raw_vector_ := [5, 5, 6, 0] }) ∧
    toList (Insert mem_unlimited example_5_6 0 (.element 1)).2 = [5, 5, 6] ∧
    (At (Insert mem_unlimited example_5_6 0 (.element 1)).2 0).1 = .ok 5 ∧
    toList (Insert mem_unlimited example_5_6 0 (.value 6)).2 = [6, 5, 6] ∧
    toList (Insert mem_unlimited example_1_2_3 0 (.element 2)).2 = [3, 1, 2, 3] :=
  ⟨by decide, by decide, rfl, rfl, rfl, rfl, rfl, rfl⟩

/-- C4: on a vector with logical sequence `s` and for a position `p` with `0 <= p < size`,
`Erase(p)` returns position `p`; afterwards the logical sequence is `s` without its `p`-th
element, the size has dropped by exactly one and the capacity is unchanged.  When an element
followed the erased one, checked access at `p` now yields it; when the last element was erased,
`p` is the new end position. -/
theorem C4_Erase {α : Type} [Inhabited α] (v : SimpleVector α) (p : Nat) (hv : WF v)
    (hp : begin_ v ≤ p ∧ p < end_ v) :
    (Erase v p).1 = .ok p ∧
    toList (Erase v p).2 = (toList v).eraseIdx p ∧
    GetSize (Erase v p).2 + 1 = GetSize v ∧
    GetCapacity (Erase v p).2 = GetCapacity v ∧
    (p + 1 < GetSize v → (At (Erase v p).2 p).1 = (At v (p + 1)).1 ∧
      (At v (p + 1)).1 = .ok (v.raw_vector_.index (p + 1))) ∧
    (p + 1 = GetSize v → p = end_ (Erase v p).2) := by
  have hp2 : p < v.size_ := hp.2
  have h := Erase_spec_aux v p hv hp2
  have hlen := length_toList v hv
  refine ⟨h.1, ?_, ?_, h.2.2.2, ?_, ?_⟩
  · rw [h.2.1, List.eraseIdx_eq_take_drop_succ]
  · simp only [GetSize, h.2.2.1]
    omega
  · intro hlt
    simp only [GetSize] at hlt
    have h1 := hv.1
    have h2 := hv.2
    have hl : ((toList v).take p).length = p := by
      rw [List.length_take, hlen]
      omega
    have hy : (toList v)[p + 1]? = some (v.raw_vector_.index (p + 1)) := by
      rw [toList, List.getElem?_take, if_pos hlt, ArrayPtr.some_index _ _ (by omega)]
    have hx : (toList (Erase v p).2)[p]? = some (v.raw_vector_.index (p + 1)) := by
      rw [h.2.1, List.getElem?_append_right (by omega), hl, Nat.sub_self, List.getElem?_drop,
        Nat.add_zero, hy]
    rw [At_of_toList _ p _ hx, At_of_toList _ (p + 1) _ hy]
    exact ⟨rfl, rfl⟩
  · intro he
    simp only [GetSize] at he
    simp only [end_, h.2.2.1]
    omega

/-- C4, at the spec's example: erasing position 1 of `{1, 9, 2, 3}` gives `{1, 2, 3}`, and the
returned position 1 holds 2. -/
theorem C4_Erase_witness :
    WF example_1_9_2_3 ∧ (begin_ example_1_9_2_3 ≤ 1 ∧ 1 < end_ example_1_9_2_3) ∧
    (Erase example_1_9_2_3 1).1 = .ok 1 ∧
    toList (Erase example_1_9_2_3 1).2 = [1, 2, 3] ∧
    GetSize (Erase example_1_9_2_3 1).2 + 1 = 4 ∧
    GetCapacity (Erase example_1_9_2_3 1).2 = 6 ∧
    (At (Erase example_1_9_2_3 1).2 1).1 = .ok 2 :=
  have h := C4_Erase example_1_9_2_3 1 (by decide) (by decide)
  ⟨by decide, by decide, h.1, h.2.1, h.2.2.1, h.2.2.2.1,
    (h.2.2.2.2.1 (by decide)).1.trans (h.2.2.2.2.1 (by decide)).2⟩

/-- C5: for a position `p` with `0 <= p <= size`, `Insert(p, x)` followed by `Erase(p)` (both
return) leaves a vector whose logical sequence and size are those of the vector before the two
calls, whether `Insert` shifted in place or reallocated (the allocation is assumed to
succeed), and whether its argument is a value held outside the vector or a reference to an
element of the vector itself. -/
theorem C5_Insert_Erase {α : Type} [Inhabited α] (mem : Nat → Bool) (v : SimpleVector α)
    (p : Nat) (x : Ref α) (hv : WF v) (hp : begin_ v ≤ p ∧ p ≤ end_ v)
    (hm : GetSize v = GetCapacity v →
      mem (if GetCapacity v = 0 then 1 else 2 * GetSize v) = true) :
    (Insert mem v p x).1 = .ok p ∧
    (Erase (Insert mem v p x).2 p).1 = .ok p ∧
    toList (Erase (Insert mem v p x).2 p).2 = toList v ∧
    GetSize (Erase (Insert mem v p x).2 p).2 = GetSize v := by
  have hp2 : p ≤ v.size_ := hp.2
  have hi := Insert_spec_aux mem v p x hv hp2 (by
    intro hc
    have := hm hc
    simpa only [GetSize, GetCapacity, Nat.mul_comm 2] using this)
  obtain ⟨y, hy, _⟩ := hi.2.1
  have hw := WF_Insert mem v p x hv
  have he := Erase_spec_aux (Insert mem v p x).2 p hw (by rw [hi.2.2.1]; omega)
  have hl : ((toList v).take p).length = p := by
    rw [List.length_take, length_toList v hv]
    omega
  refine ⟨hi.1, he.1, ?_, ?_⟩
  · rw [he.2.1, hy, List.take_left' hl]
    have e : List.drop (p + 1) (List.take p (toList v) ++ y :: List.drop p (toList v)) =
        List.drop p (toList v) := by
      have : p + 1 = (List.take p (toList v)).length + 1 := by omega
      rw [this, List.drop_append]
      rfl
    rw [e, List.take_append_drop]
  · simp only [GetSize, he.2.2.1, hi.2.2.1]
    omega

/-- C5, at concrete inputs: inserting 9 at position 1 of the full vector `{1, 2, 3}` and erasing
position 1 gives `{1, 2, 3}` again, of size 3; inserting `v[1]` at position 0 of `{5, 6}` with
capacity 4 and erasing position 0 gives `{5, 6}` again. -/
theorem C5_Insert_Erase_witness :
    WF example_1_2_3 ∧ (begin_ example_1_2_3 ≤ 1 ∧ 1 ≤ end_ example_1_2_3) ∧
    toList (Erase (Insert mem_unlimited example_1_2_3 1 (.value 9)).2 1).2 = [1, 2, 3] ∧
    GetSize (Erase (Insert mem_unlimited example_1_2_3 1 (.value 9)).2 1).2 = 3 ∧
    toList (Erase (Insert mem_unlimited example_5_6 0 (.element 1)).2 0).2 = [5, 6] :=
  have h := C5_Insert_Erase mem_unlimited example_1_2_3 1 (.value 9) (by decide) (by decide)
    (fun _ => rfl)
  have h2 := C5_Insert_Erase mem_unlimited example_5_6 0 (.element 1) (by decide) (by decide)
    (fun _ => rfl)
  ⟨by decide, by decide, h.2.2.1, h.2.2.2, h2.2.2.1⟩

/-- C6: `At(i)` throws `out_of_range` exactly when `i >= size`, whatever the capacity; when
`i < size` it returns the `i`-th element of the logical sequence; in both cases the vector is
left as it was. -/
theorem C6_At {α : Type} [Inhabited α] (v : SimpleVector α) (i : Nat) (hv : WF v) :
    ((At v i).1 = .error .out_of_range ↔ i ≥ GetSize v) ∧
    ((∃ e, (At v i).1 = .error e) ↔ i ≥ GetSize v) ∧
    (i < GetSize v → ∃ x, (toList v)[i]? = some x ∧ (At v i).1 = .ok x) ∧
    (At v i).2 = v := by
  have h1 := hv.1
  have h2 := hv.2
  by_cases hi : i ≥ v.size_
  · have e : At v i = (.error .out_of_range, v) := by simp only [At, hi, if_true]
    rw [e]
    refine ⟨⟨fun _ => hi, fun _ => rfl⟩, ⟨fun _ => hi, fun _ => ⟨_, rfl⟩⟩, ?_, rfl⟩
    intro hlt
    exact absurd hi (by simp only [GetSize] at hlt; omega)
  · have hlt : i < v.size_ := by omega
    have hx : (toList v)[i]? = some (v.raw_vector_.index i) := by
      rw [toList, List.getElem?_take, if_pos hlt, ArrayPtr.some_index _ _ (by omega)]
    rw [At_of_toList v i _ hx]
    refine ⟨⟨fun h => ?_, fun h => absurd h hi⟩, ⟨fun h => ?_, fun h => absurd h hi⟩,
      fun _ => ⟨_, hx, rfl⟩, rfl⟩
    · exact absurd h (by simp)
    · obtain ⟨e, he⟩ := h
      exact absurd he (by simp)

/-- C6, at the spec's example: `At(3)` on the 3-element vector `{1, 2, 3}` throws
`out_of_range`, as does `At(2)` on the vector `{5, 6}` of capacity 4; `At(2)` on `{1, 2, 3}`
returns 3. -/
theorem C6_At_witness :
    WF example_1_2_3 ∧ (At example_1_2_3 3).1 = .error .out_of_range ∧
    (At example_1_2_3 3).2 = example_1_2_3 ∧
    (At example_5_6 2).1 = .error .out_of_range ∧
    (At example_1_2_3 2).1 = .ok 3 :=
  ⟨by decide, (C6_At example_1_2_3 3 (by decide)).1.mpr (by decide),
    (C6_At example_1_2_3 3 (by decide)).2.2.2, rfl, rfl⟩

/-- C7: on a vector with logical sequence `s`, size `n` and capacity `c`, `Resize(newSize)` with
`newSize > n` returns and leaves the size `newSize`, the first `n` elements equal to `s`, and
every element at a position in `[n, newSize)` equal to the default value, whatever the slots
beyond `n` held before; the capacity stays `c` when `newSize <= c` and becomes
`max(newSize, 2 * c)` when `newSize > c` (the allocation is then assumed to succeed). -/
theorem C7_Resize_grow {α : Type} [Inhabited α] (mem : Nat → Bool) (v : SimpleVector α)
    (newSize : Nat) (hv : WF v) (hn : GetSize v < newSize)
    (hm : GetCapacity v < newSize → mem (max newSize (2 * GetCapacity v)) = true) :
    (Resize mem v newSize).1 = .ok () ∧
    GetSize (Resize mem v newSize).2 = newSize ∧
    (toList (Resize mem v newSize).2).take (GetSize v) = toList v ∧
    (∀ i, GetSize v ≤ i → i < newSize → (At (Resize mem v newSize).2 i).1 = .ok default) ∧
    toList (Resize mem v newSize).2 = toList v ++ List.replicate (newSize - GetSize v) default ∧
    (newSize ≤ GetCapacity v → GetCapacity (Resize mem v newSize).2 = GetCapacity v) ∧
    (GetCapacity v < newSize →
      GetCapacity (Resize mem v newSize).2 = max newSize (2 * GetCapacity v)) := by
  have h := Resize_grow_spec_aux mem v newSize hv hn hm
  have hlen := length_toList v hv
  simp only [GetSize, GetCapacity] at hn ⊢
  refine ⟨h.1, h.2.1, ?_, ?_, h.2.2.1, ?_, ?_⟩
  · rw [h.2.2.1]
    exact List.take_left' hlen
  · intro i hi1 hi2
    have hx : (toList (Resize mem v newSize).2)[i]? = some default := by
      rw [h.2.2.1, List.getElem?_append_right (by omega), hlen, List.getElem?_replicate,
        if_pos (by omega)]
    rw [At_of_toList _ i _ hx]
  · intro hc
    rw [h.2.2.2, if_pos hc]
  · intro hc
    rw [h.2.2.2, if_neg (by omega)]

/-- C7, at concrete inputs: `{5, 6}` with capacity 4, whose slot 2 still holds a 7 written
earlier; `Resize(3)` stays in the buffer and `Resize(5)` reallocates, and both expose only
default values. -/
theorem C7_Resize_grow_witness :
    WF example_5_6 ∧ GetSize example_5_6 < 3 ∧
    toList (Resize mem_unlimited example_5_6 3).2 = [5, 6, 0] ∧
    GetCapacity (Resize mem_unlimited example_5_6 3).2 = 4 ∧
    toList (Resize mem_unlimited example_5_6 5).2 = [5, 6, 0, 0, 0] ∧
    GetCapacity (Resize mem_unlimited example_5_6 5).2 = 8 :=
  have h3 := C7_Resize_grow mem_unlimited example_5_6 3 (by decide) (by decide) (fun _ => rfl)
  have h5 := C7_Resize_grow mem_unlimited example_5_6 5 (by decide) (by decide) (fun _ => rfl)
  ⟨by decide, by decide, h3.2.2.2.2.1, h3.2.2.2.2.2.1 (by decide), h5.2.2.2.2.1,
    h5.2.2.2.2.2.2 (by decide)⟩

/-- C8: `Resize(newSize)` with `newSize <= size` returns and leaves the logical sequence equal
to the first `newSize` elements of the old one, the size `newSize` and the capacity unchanged.
Consequently, for `m > n`, a `Resize(m)` that returns followed by `Resize(n)` leaves a vector of
size `n` whose elements are the first `n` elements of the vector as it was after `Resize(m)`. -/
theorem C8_Resize_shrink {α : Type} [Inhabited α] (mem : Nat → Bool) (v : SimpleVector α)
    (n : Nat) :
    (n ≤ GetSize v →
      (Resize mem v n).1 = .ok () ∧
      toList (Resize mem v n).2 = (toList v).take n ∧
      GetSize (Resize mem v n).2 = n ∧
      GetCapacity (Resize mem v n).2 = GetCapacity v) ∧
    (∀ (mem1 : Nat → Bool) (m : Nat), n < m → (Resize mem1 v m).1 = .ok () →
      (Resize mem (Resize mem1 v m).2 n).1 = .ok () ∧
      GetSize (Resize mem (Resize mem1 v m).2 n).2 = n ∧
      toList (Resize mem (Resize mem1 v m).2 n).2 = (toList (Resize mem1 v m).2).take n) := by
  have key : ∀ w : SimpleVector α, n ≤ w.size_ →
      (Resize mem w n).1 = .ok () ∧ toList (Resize mem w n).2 = (toList w).take n ∧
      (Resize mem w n).2.size_ = n ∧ (Resize mem w n).2.capacity_ = w.capacity_ := by
    intro w hw
    rw [Resize_shrink mem w n hw]
    refine ⟨rfl, ?_, rfl, rfl⟩
    simp only [toList, List.take_take, Nat.min_eq_left hw]
  refine ⟨fun hn => key v hn, ?_⟩
  intro mem1 m hnm hok
  have hsize : (Resize mem1 v m).2.size_ = m := by
    unfold Resize at hok ⊢
    split
    · rfl
    · split
      · rfl
      · rename_i h1 h2
        simp only [h1, h2, if_false] at hok
        unfold ResizeCapacity at hok ⊢
        cases hmem : (ArrayPtr.allocate mem1 (max m (2 * v.capacity_)) :
          Except Error (ArrayPtr α)) with
        | error e => simp [hmem] at hok
        | ok raw => rfl
  have hk := key (Resize mem1 v m).2 (by omega)
  exact ⟨hk.1, hk.2.2.1, hk.2.1⟩

/-- C8, at concrete inputs: `Resize(1)` on `{1, 2, 3}`, and `Resize(5)` followed by `Resize(2)`
on `{1, 2, 3}`. -/
theorem C8_Resize_shrink_witness :
    1 ≤ GetSize example_1_2_3 ∧
    toList (Resize mem_unlimited example_1_2_3 1).2 = [1] ∧
    GetCapacity (Resize mem_unlimited example_1_2_3 1).2 = 3 ∧
    toList (Resize mem_unlimited (Resize mem_unlimited example_1_2_3 5).2 2).2 =
      [1, 2] :=
  have h1 := (C8_Resize_shrink mem_unlimited example_1_2_3 1).1 (by decide)
  have h2 := (C8_Resize_shrink mem_unlimited example_1_2_3 2).2 mem_unlimited 5 (by decide) rfl
  ⟨by decide, h1.2.1, h1.2.2.2, h2.2.2⟩

/-- C9: on a vector with capacity `c`, `Reserve(newCap)` returns (the allocation needed when
`newCap > c` is assumed to succeed) and leaves the size and the logical sequence unchanged; the
capacity becomes exactly `newCap` when `newCap > c`, and the whole state is unchanged when
`newCap <= c`.  Hence the capacity afterwards is `max(c, newCap)`, never less than before. -/
theorem C9_Reserve {α : Type} [Inhabited α] (mem : Nat → Bool) (v : SimpleVector α)
    (newCap : Nat) (hv : WF v) (hm : GetCapacity v < newCap → mem newCap = true) :
    (Reserve mem v newCap).1 = .ok () ∧
    GetSize (Reserve mem v newCap).2 = GetSize v ∧
    toList (Reserve mem v newCap).2 = toList v ∧
    (GetCapacity v < newCap → GetCapacity (Reserve mem v newCap).2 = newCap) ∧
    (newCap ≤ GetCapacity v → (Reserve mem v newCap).2 = v) ∧
    GetCapacity (Reserve mem v newCap).2 = max (GetCapacity v) newCap ∧
    GetCapacity v ≤ GetCapacity (Reserve mem v newCap).2 := by
  have hlen := length_toList v hv
  simp only [GetSize, GetCapacity] at hm ⊢
  by_cases hc : v.capacity_ < newCap
  · rw [Reserve_grow mem v newCap hv hc (hm hc)]
    refine ⟨rfl, rfl, ?_, fun _ => rfl, fun h => absurd h (by omega), ?_, ?_⟩
    · simp only [toList] at hlen ⊢
      exact List.take_left' hlen
    · show newCap = max v.capacity_ newCap
      omega
    · show v.capacity_ ≤ newCap
      omega
  · rw [Reserve_noop mem v newCap (by omega)]
    refine ⟨rfl, rfl, rfl, fun h => absurd h hc, fun _ => rfl, ?_, Nat.le_refl _⟩
    show v.capacity_ = max v.capacity_ newCap
    omega

/-- C9, at concrete inputs: `Reserve(10)` and `Reserve(2)` on `{1, 2, 3}` of capacity 3. -/
theorem C9_Reserve_witness :
    WF example_1_2_3 ∧
    toList (Reserve mem_unlimited example_1_2_3 10).2 = [1, 2, 3] ∧
    GetCapacity (Reserve mem_unlimited example_1_2_3 10).2 = 10 ∧
    (Reserve mem_unlimited example_1_2_3 2).2 = example_1_2_3 :=
  have h := C9_Reserve mem_unlimited example_1_2_3 10 (by decide) (fun _ => rfl)
  have h2 := C9_Reserve mem_unlimited example_1_2_3 2 (by decide) (fun _ => rfl)
  ⟨by decide, h.2.2.1, h.2.2.2.1 (by decide), h2.2.2.2.2.1 (by decide)⟩

/-- C10: calling `PushBack` with each of `k` values in turn on a default-constructed vector
(every allocation of a power-of-two number of slots is assumed to succeed) returns each time
and yields size `k`, the logical sequence equal to the values in push order, and a capacity that
is 0 when `k == 0` and otherwise the least power of two that is `>= k`; the capacity is never
below the size. -/
theorem C10_PushBack_repeated {α : Type} [Inhabited α] (mem : Nat → Bool) (values : List α)
    (hm : ∀ j, mem (2 ^ j) = true) :
    (PushBackAll mem ctor_default values).1 = .ok () ∧
    GetSize (PushBackAll mem ctor_default values).2 = values.length ∧
    toList (PushBackAll mem ctor_default values).2 = values ∧
    (values.length = 0 → GetCapacity (PushBackAll mem ctor_default values).2 = 0) ∧
    (0 < values.length →
      ∃ j, GetCapacity (PushBackAll mem ctor_default values).2 = 2 ^ j ∧
        values.length ≤ 2 ^ j ∧ ∀ i, values.length ≤ 2 ^ i → 2 ^ j ≤ 2 ^ i) ∧
    GetSize (PushBackAll mem ctor_default values).2 ≤
      GetCapacity (PushBackAll mem ctor_default values).2 := by
  have h := PushBackAll_spec_aux mem hm values (ctor_default : SimpleVector α)
    ⟨Nat.le_refl _, rfl⟩ (Or.inl ⟨rfl, rfl⟩)
  have hsize : (PushBackAll mem ctor_default values).2.size_ = values.length := by
    rw [h.2.2.2.1]
    simp [ctor_default]
  have hle := h.2.1.1
  simp only [GetSize, GetCapacity]
  refine ⟨h.1, hsize, ?_, ?_, ?_, hle⟩
  · rw [h.2.2.1]
    simp [toList, ctor_default]
  · intro h0
    rcases h.2.2.2.2 with ⟨_, hc⟩ | ⟨hpos, _⟩
    · exact hc
    · omega
  · intro hpos
    rcases h.2.2.2.2 with ⟨hs, _⟩ | ⟨_, j, hj, hlt⟩
    · omega
    · refine ⟨j, hj, by omega, ?_⟩
      intro i hi
      have h2 : 2 ^ j < 2 ^ (i + 1) := by
        rw [Nat.pow_succ]
        omega
      have h3 : j < i + 1 := (Nat.pow_lt_pow_iff_right (by decide)).mp h2
      exact Nat.pow_le_pow_right (by decide) (by omega)

/-- C10, at the spec's example: pushing 5, 6, 7 onto an empty vector gives the sizes and
capacities (1, 1), (2, 2), (3, 4), and the logical sequence `{5, 6, 7}`. -/
theorem C10_PushBack_repeated_witness :
    (GetSize (PushBackAll mem_unlimited ctor_default [5]).2 = 1 ∧
      GetCapacity (PushBackAll mem_unlimited ctor_default [5]).2 = 1) ∧
    (GetSize (PushBackAll mem_unlimited ctor_default [5, 6]).2 = 2 ∧
      GetCapacity (PushBackAll mem_unlimited ctor_default [5, 6]).2 = 2) ∧
    (GetSize (PushBackAll mem_unlimited ctor_default [5, 6, 7]).2 = 3 ∧
      GetCapacity (PushBackAll mem_unlimited ctor_default [5, 6, 7]).2 = 4) ∧
    toList (PushBackAll mem_unlimited ctor_default [5, 6, 7]).2 = [5, 6, 7] :=
  have h1 := C10_PushBack_repeated mem_unlimited [5] (fun _ => rfl)
  have h2 := C10_PushBack_repeated mem_unlimited [5, 6] (fun _ => rfl)
  have h3 := C10_PushBack_repeated mem_unlimited [5, 6, 7] (fun _ => rfl)
  ⟨⟨h1.2.1, by decide⟩, ⟨h2.2.1, by decide⟩, ⟨h3.2.1, by decide⟩, h3.2.2.1⟩

/-- C11: for a valid insert position, `Insert` (which returns; the allocation of the full case
is assumed to succeed), whatever its argument refers to, leaves the capacity unchanged when
`capacity > size` before the call;
when the vector was full (`capacity == size`) the capacity afterwards is 1 if it was 0 and
exactly twice the size before the call otherwise. -/
theorem C11_Insert_capacity {α : Type} [Inhabited α] (mem : Nat → Bool) (v : SimpleVector α)
    (p : Nat) (x : Ref α) (hv : WF v) (hp : begin_ v ≤ p ∧ p ≤ end_ v)
    (hm : GetSize v = GetCapacity v →
      mem (if GetCapacity v = 0 then 1 else 2 * GetSize v) = true) :
    (Insert mem v p x).1 = .ok p ∧
    (GetSize v < GetCapacity v → GetCapacity (Insert mem v p x).2 = GetCapacity v) ∧
    (GetSize v = GetCapacity v → GetCapacity v = 0 → GetCapacity (Insert mem v p x).2 = 1) ∧
    (GetSize v = GetCapacity v → GetCapacity v ≠ 0 →
      GetCapacity (Insert mem v p x).2 = 2 * GetSize v) := by
  have h := Insert_spec_aux mem v p x hv hp.2 (by
    intro hc
    have := hm hc
    simpa only [GetSize, GetCapacity, Nat.mul_comm 2] using this)
  simp only [GetSize, GetCapacity]
  refine ⟨h.1, ?_, ?_, ?_⟩
  · intro hlt
    rw [h.2.2.2, if_pos hlt]
  · intro heq h0
    rw [h.2.2.2, if_neg (by omega), if_pos h0]
  · intro heq h0
    rw [h.2.2.2, if_neg (by omega), if_neg h0]
    omega

/-- C11, at concrete inputs: `Insert` at position 1 of `{5, 6}` with capacity 4 keeps the
capacity 4, of the full vector `{1, 2, 3}` makes it 6, and `Insert` into a default-constructed
vector makes it 1. -/
theorem C11_Insert_capacity_witness :
    WF example_5_6 ∧ (begin_ example_5_6 ≤ 1 ∧ 1 ≤ end_ example_5_6) ∧
    GetCapacity (Insert mem_unlimited example_5_6 1 (.value 9)).2 = 4 ∧
    GetCapacity (Insert mem_unlimited example_1_2_3 1 (.value 9)).2 = 6 ∧
    GetCapacity (Insert mem_unlimited (ctor_default : SimpleVector Nat) 0 (.value 9)).2 = 1 :=
  have h1 := C11_Insert_capacity mem_unlimited example_5_6 1 (.value 9) (by decide) (by decide)
    (fun _ => rfl)
  have h2 := C11_Insert_capacity mem_unlimited example_1_2_3 1 (.value 9) (by decide) (by decide)
    (fun _ => rfl)
  have h3 := C11_Insert_capacity mem_unlimited (ctor_default : SimpleVector Nat) 0 (.value 9)
    (by decide) (by decide) (fun _ => rfl)
  ⟨by decide, by decide, h1.2.1 (by decide), h2.2.2.2 rfl (by decide), h3.2.2.1 rfl rfl⟩

/-- C12: the constructor `SimpleVector(n, x)` (its allocation of `n` slots is assumed to
succeed) builds a vector of size `n` and capacity `n` whose `n` elements all equal `x`; the
constructor `SimpleVector(n)` builds the same with `x` the default value of the element type. -/
theorem C12_ctor_size {α : Type} [Inhabited α] (mem : Nat → Bool) (n : Nat) (x : α)
    (hm : mem n = true) :
    (∃ v, ctor_size_value mem n x = .ok v ∧ GetSize v = n ∧ GetCapacity v = n ∧
      toList v = List.replicate n x ∧ ∀ i, i < n → (At v i).1 = .ok x) ∧
    (∃ v, ctor_size mem n = .ok v ∧ GetSize v = n ∧ GetCapacity v = n ∧
      toList v = List.replicate n (default : α) ∧ ∀ i, i < n → (At v i).1 = .ok default) := by
  have key : ∀ y : α, ∃ v, ctor_size_value mem n y = .ok v ∧ GetSize v = n ∧
      GetCapacity v = n ∧ toList v = List.replicate n y ∧ ∀ i, i < n → (At v i).1 = .ok y := by
    intro y
    refine ⟨_, ctor_size_value_ok mem n y hm, rfl, rfl, ?_, ?_⟩
    · simp [toList]
    · intro i hi
      rw [At_of_toList _ i y (by simp [toList, hi])]
  exact ⟨key x, key default⟩

/-- C12, at concrete inputs: `SimpleVector(3, 7)` is `{7, 7, 7}` with size and capacity 3, and
`SimpleVector(2)` is `{0, 0}` with size and capacity 2. -/
theorem C12_ctor_size_witness :
    (ctor_size_value mem_unlimited 3 7 : Except Error (SimpleVector Nat)) =
      .ok { capacity_ := 3, size_ := 3, raw_vector_ := [7, 7, 7] } ∧
    (ctor_size mem_unlimited 2 : Except Error (SimpleVector Nat)) =
      .ok { capacity_ := 2, size_ := 2, raw_vector_ := [0, 0] } ∧
    (∃ v : SimpleVector Nat, ctor_size_value mem_unlimited 3 7 = .ok v ∧ GetSize v = 3 ∧
      GetCapacity v = 3 ∧ toList v = [7, 7, 7] ∧ ∀ i, i < 3 → (At v i).1 = .ok 7) :=
  ⟨rfl, rfl, (C12_ctor_size mem_unlimited 3 (7 : Nat) rfl).1⟩

/-- C14: move assignment from a distinct `src` to any `dst` leaves `dst` with exactly the former
logical sequence, size and capacity of `src` (indeed with its whole former state), whatever
`dst` held before, and leaves `src` with size 0 and capacity 0; move construction does the
same. -/
theorem C14_move {α : Type} [Inhabited α] (dst src : SimpleVector α) :
    ((move_assign dst (.other src)).1 = src ∧
      toList (move_assign dst (.other src)).1 = toList src ∧
      GetSize (move_assign dst (.other src)).1 = GetSize src ∧
      GetCapacity (move_assign dst (.other src)).1 = GetCapacity src ∧
      ∃ src1, (move_assign dst (.other src)).2 = .other src1 ∧
        GetSize src1 = 0 ∧ GetCapacity src1 = 0 ∧ toList src1 = []) ∧
    ((ctor_move src).1 = src ∧
      ∃ src1, (ctor_move src).2 = .other src1 ∧
        GetSize src1 = 0 ∧ GetCapacity src1 = 0 ∧ toList src1 = []) :=
  ⟨⟨rfl, rfl, rfl, rfl, _, rfl, rfl, rfl, rfl⟩, rfl, _, rfl, rfl, rfl, rfl⟩

/-- C15: for two vectors `a` and `b`, `a == b` holds exactly when they have the same size and
their elements are pairwise `==` at every position below the size; the outcome depends on the
logical sequences only, not on the capacities or on slots at or beyond the size.  An object
equals itself (the identity test), and so does a distinct object in the same state when `==` on
elements is reflexive; `==` on vectors is symmetric when `==` on elements is; `a != b` is the
negation of `a == b`. -/
theorem C15_operator_eq {α : Type} [Inhabited α] [BEq α] (a b : SimpleVector α) (ha : WF a)
    (hb : WF b) (hsymm : ∀ x y : α, (x == y) = (y == x)) :
    (operator_eq a (.other b) = true ↔
      GetSize a = GetSize b ∧
        ∀ (i : Nat) (x y : α), (toList a)[i]? = some x → (toList b)[i]? = some y →
          (x == y) = true) ∧
    (∀ a1 b1 : SimpleVector α, WF a1 → WF b1 → toList a1 = toList a → toList b1 = toList b →
      operator_eq a1 (.other b1) = operator_eq a (.other b)) ∧
    operator_eq a .self = true ∧
    ((∀ x : α, (x == x) = true) → operator_eq a (.other a) = true) ∧
    operator_eq b (.other a) = operator_eq a (.other b) ∧
    (∀ rhs : Operand α, operator_ne a rhs = !(operator_eq a rhs)) := by
  have hab := operator_eq_iff a b ha hb
  refine ⟨?_, ?_, rfl, ?_, ?_, fun _ => rfl⟩
  · rw [hab, length_toList a ha, length_toList b hb]
    rfl
  · intro a1 b1 ha1 hb1 e1 e2
    rw [Bool.eq_iff_iff, operator_eq_iff a1 b1 ha1 hb1, hab, e1, e2]
  · intro hrefl
    rw [operator_eq_iff a a ha ha]
    refine ⟨rfl, fun i x y hx hy => ?_⟩
    rw [hx] at hy
    cases hy
    exact hrefl x
  · rw [Bool.eq_iff_iff, operator_eq_iff b a hb ha, hab]
    constructor
    · rintro ⟨hl, h⟩
      exact ⟨hl.symm, fun i x y hx hy => by rw [hsymm]; exact h i y x hy hx⟩
    · rintro ⟨hl, h⟩
      exact ⟨hl.symm, fun i x y hx hy => by rw [hsymm]; exact h i y x hy hx⟩

/-- C15, at concrete inputs: `{1, 2, 3}` of capacity 3 equals `{1, 2, 3}` of capacity 10, and
does not equal `{1, 9, 2, 3}`; `{5, 6}` of capacity 4 (slot 2 holds a stale 7) equals `{5, 6}`
of capacity 2. -/
theorem C15_operator_eq_witness :
    WF example_1_2_3 ∧ WF (Reserve mem_unlimited example_1_2_3 10).2 ∧
    operator_eq example_1_2_3 (.other (Reserve mem_unlimited example_1_2_3 10).2) = true ∧
    operator_eq (Reserve mem_unlimited example_1_2_3 10).2 (.other example_1_2_3) =
      operator_eq example_1_2_3 (.other (Reserve mem_unlimited example_1_2_3 10).2) ∧
    operator_eq example_1_2_3 (.other example_1_9_2_3) = false ∧
    operator_ne example_1_2_3 (.other example_1_9_2_3) = true ∧
    operator_eq example_5_6
      (.other { capacity_ := 2, size_ := 2, raw_vector_ := [5, 6] }) = true :=
  have h := C15_operator_eq example_1_2_3 (Reserve mem_unlimited example_1_2_3 10).2
    (by decide) (by decide) (fun _ _ => BEq.comm)
  ⟨by decide, by decide, by decide, h.2.2.2.2.1, by decide, by decide, by decide⟩

/-- C16: over an element type whose `<` is a strict total order, `a < b` holds exactly when the
logical sequence of `a` precedes that of `b` lexicographically (at the first position where they
differ the element of `a` is the smaller one, or `a` is a proper prefix of `b`).  The relation
is a strict weak order: irreflexive, transitive, and with transitive incomparability. -/
theorem C16_operator_lt {α : Type} [Inhabited α] [LinearOrder α] (a b c : SimpleVector α)
    (ha : WF a) (hb : WF b) (hc : WF c) :
    (operator_lt a b = true ↔ LexPrecedes (toList a) (toList b)) ∧
    operator_lt a a = false ∧
    (operator_lt a b = true → operator_lt b c = true → operator_lt a c = true) ∧
    (operator_lt a b = false ∧ operator_lt b a = false →
      operator_lt b c = false ∧ operator_lt c b = false →
        operator_lt a c = false ∧ operator_lt c a = false) := by
  refine ⟨?_, ?_, ?_, ?_⟩
  · rw [operator_lt_iff a b ha hb]
    exact ⟨LexPrecedes_of_Lex _ _, Lex_of_LexPrecedes _ _⟩
  · rw [operator_lt_eq_false_iff a a ha ha]
    exact lt_irrefl _
  · rw [operator_lt_iff a b ha hb, operator_lt_iff b c hb hc, operator_lt_iff a c ha hc]
    exact lt_trans
  · rw [operator_lt_eq_false_iff a b ha hb, operator_lt_eq_false_iff b a hb ha,
      operator_lt_eq_false_iff b c hb hc, operator_lt_eq_false_iff c b hc hb,
      operator_lt_eq_false_iff a c ha hc, operator_lt_eq_false_iff c a hc ha]
    rintro ⟨h1, h2⟩ ⟨h3, h4⟩
    have e1 : toList a = toList b := le_antisymm (not_lt.mp h2) (not_lt.mp h1)
    have e2 : toList b = toList c := le_antisymm (not_lt.mp h4) (not_lt.mp h3)
    rw [e1, e2]
    exact ⟨lt_irrefl _, lt_irrefl _⟩

/-- C16, at concrete inputs: `{1, 2, 3} < {1, 9, 2, 3}` (first difference at position 1),
`{1, 9, 2, 3} < {5, 6}` (first difference at position 0), hence `{1, 2, 3} < {5, 6}`; and
`{1, 2, 3} < {1, 2, 3, 4}` (proper prefix). -/
theorem C16_operator_lt_witness :
    WF example_1_2_3 ∧ WF example_1_9_2_3 ∧ WF example_5_6 ∧
    operator_lt example_1_2_3 example_1_9_2_3 = true ∧
    operator_lt example_1_9_2_3 example_5_6 = true ∧
    operator_lt example_1_2_3 example_5_6 = true ∧
    operator_lt example_1_2_3 example_1_2_3 = false ∧
    operator_lt example_1_2_3 (PushBack mem_unlimited example_1_2_3 (.value 4)).2 = true ∧
    LexPrecedes (toList example_1_2_3) (toList example_1_9_2_3) :=
  have h := C16_operator_lt example_1_2_3 example_1_9_2_3 example_5_6 (by decide) (by decide)
    (by decide)
  ⟨by decide, by decide, by decide, by decide, by decide, h.2.2.1 (by decide) (by decide),
    h.2.1, by decide, h.1.mp (by decide)⟩


/-- C17: when the allocation that growth needs fails, each of `Reserve`, `Resize`, `PushBack`
and `Insert` ends with the allocation error and leaves the vector exactly as it was before the
call: the same size, capacity and buffer contents, hence the same logical sequence; this does
not depend on what the argument of `PushBack` or `Insert` refers to. -/
theorem C17_allocation_failure {α : Type} [Inhabited α] (mem : Nat → Bool) (v : SimpleVector α)
    (n p : Nat) (x : Ref α) :
    (GetCapacity v < n → mem n = false → Reserve mem v n = (.error .bad_alloc, v)) ∧
    (GetSize v < n → GetCapacity v < n → mem (max n (2 * GetCapacity v)) = false →
      Resize mem v n = (.error .bad_alloc, v)) ∧
    (GetCapacity v = GetSize v → mem (if GetSize v = 0 then 1 else GetSize v * 2) = false →
      PushBack mem v x = (.error .bad_alloc, v)) ∧
    (begin_ v ≤ p ∧ p ≤ end_ v → ¬ GetCapacity v > GetSize v →
      mem (if GetCapacity v = 0 then 1 else GetSize v * 2) = false →
      Insert mem v p x = (.error .bad_alloc, v)) := by
  simp only [GetSize, GetCapacity, begin_, end_]
  refine ⟨?_, ?_, ?_, ?_⟩
  · intro hc hm
    simp only [Reserve, gt_iff_lt, hc, if_true, ResizeCapacity, ArrayPtr.allocate, hm,
      Bool.false_eq_true, if_false]
  · intro hs hc hm
    have h1 : ¬ n ≤ v.size_ := by omega
    have h2 : ¬ n ≤ v.capacity_ := by omega
    simp only [Resize, h1, h2, if_false, ResizeCapacity, ArrayPtr.allocate, hm,
      Bool.false_eq_true]
  · intro hc hm
    simp only [PushBack, hc, beq_self_eq_true, if_true, beq_iff_eq, ResizeCapacity,
      ArrayPtr.allocate, hm, Bool.false_eq_true, if_false]
  · intro hp hc hm
    by_cases h0 : v.capacity_ = 0
    · rw [if_pos h0] at hm
      have hc0 : ¬ 0 > v.size_ := Nat.not_lt_zero _
      simp only [Insert, begin_, end_, ge_iff_le, hp, and_self, not_true_eq_false, if_false,
        hc, beq_iff_eq, h0, hc0, if_true, ArrayPtr.allocate, hm, Bool.false_eq_true]
    · rw [if_neg h0] at hm
      simp only [Insert, begin_, end_, ge_iff_le, hp, and_self, not_true_eq_false, if_false,
        hc, beq_iff_eq, h0, ArrayPtr.allocate, hm, Bool.false_eq_true]

/-- C17, at concrete inputs: with an allocator that always fails, `Reserve(10)`, `Resize(5)`,
`PushBack(4)` and `Insert` at position 1 on the full vector `{1, 2, 3}` all end with the
allocation error and leave `{1, 2, 3}` with capacity 3. -/
theorem C17_allocation_failure_witness :
    Reserve (fun _ => false) example_1_2_3 10 = (.error .bad_alloc, example_1_2_3) ∧
    Resize (fun _ => false) example_1_2_3 5 = (.error .bad_alloc, example_1_2_3) ∧
    PushBack (fun _ => false) example_1_2_3 (.value 4) = (.error .bad_alloc, example_1_2_3) ∧
    Insert (fun _ => false) example_1_2_3 1 (.value 9) = (.error .bad_alloc, example_1_2_3) :=
  ⟨(C17_allocation_failure (fun _ => false) example_1_2_3 10 1 (.value 9)).1 (by decide) rfl,
    (C17_allocation_failure (fun _ => false) example_1_2_3 5 1 (.value 9)).2.1 (by decide)
      (by decide) rfl,
    (C17_allocation_failure (fun _ => false) example_1_2_3 5 1 (.value 4)).2.2.1 rfl rfl,
    (C17_allocation_failure (fun _ => false) example_1_2_3 5 1 (.value 9)).2.2.2 (by decide)
      (by decide) rfl⟩


/-- C18: over a totally ordered element type whose `==` is equality, the derived operators agree
with `<` and `==`: `a <= b` holds exactly when `a < b` or `a == b`, `a > b` exactly when
`b < a`, `a >= b` exactly when `a > b` or `a == b`, and exactly one of `a < b`, `a == b`,
`a > b` holds.  For an object compared with itself, `<=`, `>=` and `==` hold and `<`, `>` do
not. -/
theorem C18_derived_operators {α : Type} [Inhabited α] [LinearOrder α] [BEq α] [LawfulBEq α]
    (a b : SimpleVector α) (ha : WF a) (hb : WF b) :
    (operator_le a b = true ↔ operator_lt a b = true ∨ operator_eq a (.other b) = true) ∧
    (operator_gt a b = true ↔ operator_lt b a = true) ∧
    (operator_ge a b = true ↔ operator_gt a b = true ∨ operator_eq a (.other b) = true) ∧
    ((operator_lt a b = true ∧ operator_eq a (.other b) = false ∧ operator_gt a b = false) ∨
      (operator_lt a b = false ∧ operator_eq a (.other b) = true ∧ operator_gt a b = false) ∨
      (operator_lt a b = false ∧ operator_eq a (.other b) = false ∧ operator_gt a b = true)) ∧
    (operator_le a a = true ∧ operator_ge a a = true ∧ operator_eq a .self = true ∧
      operator_lt a a = false ∧ operator_gt a a = false) := by
  have hlt := operator_lt_iff a b ha hb
  have hgt := operator_lt_iff b a hb ha
  have heq := operator_eq_iff_toList_eq a b ha hb
  have hnlt := operator_lt_eq_false_iff a b ha hb
  have hngt := operator_lt_eq_false_iff b a hb ha
  have hneq : operator_eq a (.other b) = false ↔ toList a ≠ toList b := by
    rw [Ne, ← heq, Bool.not_eq_true]
  have haa : operator_lt a a = false := by
    rw [operator_lt_eq_false_iff a a ha ha]
    exact lt_irrefl _
  refine ⟨?_, Iff.rfl, ?_, ?_, ?_⟩
  · simp only [operator_le, Bool.not_eq_true', hngt, hlt, heq]
    rw [not_lt]
    exact le_iff_lt_or_eq
  · simp only [operator_ge, operator_gt, Bool.not_eq_true', hnlt, hgt, heq]
    rw [not_lt]
    constructor
    · intro h
      rcases lt_or_eq_of_le h with h1 | h1
      · exact Or.inl h1
      · exact Or.inr h1.symm
    · rintro (h | h)
      · exact le_of_lt h
      · exact le_of_eq h.symm
  · simp only [operator_gt, hlt, hgt, heq, hnlt, hngt, hneq]
    rcases lt_trichotomy (toList a) (toList b) with h | h | h
    · exact Or.inl ⟨h, ne_of_lt h, not_lt_of_lt h⟩
    · exact Or.inr (Or.inl ⟨by rw [h]; exact lt_irrefl _, h, by rw [h]; exact lt_irrefl _⟩)
    · exact Or.inr (Or.inr ⟨not_lt_of_lt h, ne_of_gt h, h⟩)
  · simp only [operator_le, operator_ge, operator_gt, operator_eq, haa, Bool.not_false,
      and_self]

/-- C18, at concrete inputs: for `{1, 2, 3}` and `{1, 9, 2, 3}`, `<` and `<=` hold and `==`,
`>`, `>=` do not. -/
theorem C18_derived_operators_witness :
    WF example_1_2_3 ∧ WF example_1_9_2_3 ∧
    operator_lt example_1_2_3 example_1_9_2_3 = true ∧
    operator_le example_1_2_3 example_1_9_2_3 = true ∧
    operator_eq example_1_2_3 (.other example_1_9_2_3) = false ∧
    operator_gt example_1_2_3 example_1_9_2_3 = false ∧
    operator_ge example_1_2_3 example_1_9_2_3 = false :=
  have h := C18_derived_operators example_1_2_3 example_1_9_2_3 (by decide) (by decide)
  ⟨by decide, by decide, by decide, h.1.mpr (Or.inl (by decide)), by decide, by decide,
    by decide⟩


/-- C19, refuted as stated: `{5, 6}` with capacity 4 holds in slot 2 the value 7 that an earlier
`PopBack` removed; `Resize(3)` grows the size into the unused capacity, and the newly exposed
slot 2 then holds the default value 0, not the stale 7. -/
theorem C19_Resize_keeps_stale_counterexample :
    PopBack (PushBackAll mem_unlimited ctor_default [5, 6, 7]).2 = (.ok (), example_5_6) ∧
    GetSize example_5_6 < 3 ∧ 3 ≤ GetCapacity example_5_6 ∧
    (example_5_6.raw_vector_.index 2 = 7 ∧
      (Resize mem_unlimited example_5_6 3).2.raw_vector_.index 2 = 0 ∧
      (At (Resize mem_unlimited example_5_6 3).2 2).1 = .ok 0) ∧
    ¬ (∀ (v : SimpleVector Nat) (newSize i : Nat), WF v → GetSize v < newSize →
        newSize ≤ GetCapacity v → GetSize v ≤ i → i < newSize →
        (Resize mem_unlimited v newSize).2.raw_vector_.index i = v.raw_vector_.index i) :=
  ⟨rfl, by decide, by decide, ⟨rfl, rfl, rfl⟩,
    fun h => absurd (h example_5_6 3 2 (by decide) (by decide) (by decide) (by decide)
      (by decide)) (by decide)⟩

/-- C19, amended: when `Resize` grows the size into unused capacity
(`size < newSize <= capacity`), it returns without allocating, keeps the capacity and the
elements below the old size, and resets every newly exposed slot in `[size, newSize)` to the
default value of the element type, whatever value was written there earlier.  `PopBack` itself
does not touch the buffer: the slot it vacates keeps its value until such a reset. -/
theorem C19_Resize_resets {α : Type} [Inhabited α] (mem : Nat → Bool) (v : SimpleVector α)
    (newSize : Nat) (hv : WF v) (hn : GetSize v < newSize) (hc : newSize ≤ GetCapacity v) :
    (Resize mem v newSize).1 = .ok () ∧
    GetSize (Resize mem v newSize).2 = newSize ∧
    GetCapacity (Resize mem v newSize).2 = GetCapacity v ∧
    (∀ i, GetSize v ≤ i → i < newSize →
      (Resize mem v newSize).2.raw_vector_.index i = default) ∧
    (∀ i, i < GetSize v →
      (Resize mem v newSize).2.raw_vector_.index i = v.raw_vector_.index i) ∧
    (PopBack v).2.raw_vector_ = v.raw_vector_ := by
  simp only [GetSize, GetCapacity] at hn hc ⊢
  have hlen := length_toList v hv
  have h2 := hv.2
  rw [Resize_fill mem v newSize hv hn hc]
  refine ⟨rfl, rfl, rfl, ?_, ?_, ?_⟩
  · intro i hi1 hi2
    simp only [ArrayPtr.index, List.getD_eq_getElem?_getD]
    rw [List.append_assoc, List.getElem?_append_right (by omega), hlen,
      List.getElem?_append_left (by simp; omega), List.getElem?_replicate, if_pos (by omega)]
    rfl
  · intro i hi
    simp only [ArrayPtr.index, List.getD_eq_getElem?_getD]
    rw [List.append_assoc, List.getElem?_append_left (by omega), toList, List.getElem?_take,
      if_pos hi]
  · unfold PopBack
    split <;> rfl

/-- C19 as amended, at concrete inputs: `Resize(3)` on `{5, 6}` with capacity 4 and a stale 7 in
slot 2 gives `{5, 6, 0}`; `PopBack` on `{1, 2, 3}` leaves the 3 in slot 2. -/
theorem C19_Resize_resets_witness :
    WF example_5_6 ∧ GetSize example_5_6 < 3 ∧ 3 ≤ GetCapacity example_5_6 ∧
    (Resize mem_unlimited example_5_6 3).2.raw_vector_.index 2 = 0 ∧
    toList (Resize mem_unlimited example_5_6 3).2 = [5, 6, 0] ∧
    (PopBack example_1_2_3).2.raw_vector_ = [1, 2, 3] :=
  have h := C19_Resize_resets mem_unlimited example_5_6 3 (by decide) (by decide) (by decide)
  ⟨by decide, by decide, by decide, h.2.2.2.1 2 (by decide) (by decide), by decide, rfl⟩

/-- For an argument that is a value held outside the vector, and for any argument when the
vector has spare capacity: `PushBack(x)` and `Insert(end(), x)` both return (the allocation of
the full case is assumed to succeed) and leave the same logical sequence, the same size and the
same capacity. -/
theorem PushBack_Insert_end_value {α : Type} [Inhabited α] (mem : Nat → Bool)
    (v : SimpleVector α) (value : Ref α) (hv : WF v)
    (hm : GetSize v = GetCapacity v → mem (if GetSize v = 0 then 1 else GetSize v * 2) = true)
    (hr : (∃ x, value = .value x) ∨ GetSize v < GetCapacity v) :
    (PushBack mem v value).1 = .ok () ∧
    (Insert mem v (end_ v) value).1 = .ok (end_ v) ∧
    toList (PushBack mem v value).2 = toList (Insert mem v (end_ v) value).2 ∧
    GetSize (PushBack mem v value).2 = GetSize (Insert mem v (end_ v) value).2 ∧
    GetCapacity (PushBack mem v value).2 = GetCapacity (Insert mem v (end_ v) value).2 := by
  simp only [GetSize, GetCapacity, end_] at hm hr ⊢
  have h1 := hv.1
  have hlen := length_toList v hv
  have hi := Insert_spec_aux mem v v.size_ value hv (Nat.le_refl _) (by
    intro hc
    have := hm hc
    by_cases h0 : v.size_ = 0
    · rw [if_pos h0] at this
      rw [if_pos (by omega)]
      exact this
    · rw [if_neg h0] at this
      rw [if_neg (by omega)]
      exact this)
  obtain ⟨y, hy, hy1, _, hy3⟩ := hi.2.1
  rw [List.take_of_length_le (by omega), List.drop_of_length_le (by omega)] at hy
  rcases hr with ⟨x, hx⟩ | hspare
  · subst hx
    have hp := PushBack_spec_aux mem v x hv hm
    refine ⟨hp.1, hi.1, ?_, ?_, ?_⟩
    · rw [hp.2.1, hy, hy1 x rfl]
    · rw [hp.2.2.1, hi.2.2.1]
    · rw [hp.2.2.2, hi.2.2.2]
      by_cases hc : v.size_ < v.capacity_
      · rw [if_pos hc, if_pos hc]
      · rw [if_neg hc, if_neg hc]
        by_cases h0 : v.size_ = 0
        · rw [if_pos h0, if_pos (by omega)]
        · rw [if_neg h0, if_neg (by omega)]
  · have hp := PushBack_spare_spec mem v value hv hspare
    have hb : std_move_backward v.raw_vector_ v.size_ v.size_ (v.size_ + 1) = v.raw_vector_ := by
      simp only [std_move_backward, Nat.sub_self, std_move_backward_loop]
    refine ⟨hp.1, hi.1, ?_, ?_, ?_⟩
    · rw [hp.2.1, hy, hy3 hspare, hb]
    · rw [hp.2.2.1, hi.2.2.1]
    · rw [hp.2.2.2, hi.2.2.2, if_pos hspare]

/-- C20, where the code departs from it: on the full vector `{1, 2, 3}`, `Insert(end(), v[2])`
reads its argument from the old buffer before that buffer is replaced and leaves
`{1, 2, 3, 3}` with capacity 6, while `PushBack(v[2])` reads it after `ResizeCapacity` has
released the old buffer, through a reference that dangles.  The two calls do not leave the same
state.  This is the defect of C2. -/
theorem C20_PushBack_Insert_end_own_element :
    GetSize example_1_2_3 = GetCapacity example_1_2_3 ∧
    Insert mem_unlimited example_1_2_3 (end_ example_1_2_3) (.element 2) =
      (.ok 3, { capacity_ := 6, size_ := 4, raw_vector_ := [1, 2, 3, 3, 0, 0] }) ∧
    PushBack mem_unlimited example_1_2_3 (.element 2) =
      (.error .dangling_reference,
       { capacity_ := 6, size_ := 3, raw_vector_ := [1, 2, 3, 0, 0, 0] }) ∧
    toList (PushBack mem_unlimited example_1_2_3 (.element 2)).2 ≠
      toList (Insert mem_unlimited example_1_2_3 (end_ example_1_2_3) (.element 2)).2 ∧
    (PushBack mem_unlimited example_5_6 (.element 1)).2 =
      (Insert mem_unlimited example_5_6 (end_ example_5_6) (.element 1)).2 :=
  ⟨rfl, rfl, rfl, by decide, rfl⟩

end SimpleVector
